import Mathlib

/- Shallow embedding of the vibespec hybrid refinement pipeline:
   the heuristic parser (src/core/heuristic-parser.ts), the LRU result
   cache (src/utils/cache.ts), the OpenRouter JSON repair helpers
   (src/core/ai-adapters.ts) and the processor orchestration
   (src/core/processor.ts), together with theorems checking the
   specification claims.

   Modelling conventions:
   - JavaScript strings are modelled as Lean String / List Char
     (UTF-16 subtleties are ignored; all relevant literals are ASCII).
   - A JavaScript Map is modelled as an association list in insertion
     order (oldest first), matching Map iteration order.
   - SHA-256 hashing inside the cache key derivation and the metadata
     input hash is modelled as the identity on the hashed data string
     (an injective stand-in; hash collisions are outside the model).
   - Floating-point arithmetic (only the heuristic confidence score)
     is modelled with rational numbers.
-/

namespace Vibespec

/-- Whitespace as recognised by JavaScript String.prototype.trim and by
the regex class backslash-s. -/
def isJsWS (c : Char) : Bool :=
  c = ' ' || c = '\t' || c = '\n' || c = '\r' ||
  c = Char.ofNat 11 || c = Char.ofNat 12 ||
  c = Char.ofNat 0xA0 || c = Char.ofNat 0xFEFF ||
  c = Char.ofNat 0x1680 ||
  (0x2000 ≤ c.toNat && c.toNat ≤ 0x200A) ||
  c = Char.ofNat 0x2028 || c = Char.ofNat 0x2029 ||
  c = Char.ofNat 0x202F || c = Char.ofNat 0x205F || c = Char.ofNat 0x3000

/-- Remove trailing JavaScript whitespace from a character list. -/
def trimRightL (l : List Char) : List Char :=
  (l.reverse.dropWhile isJsWS).reverse

/-- Remove leading and trailing JavaScript whitespace. -/
def trimL (l : List Char) : List Char :=
  (trimRightL l).dropWhile isJsWS

/-- Model of JavaScript String.prototype.trim. -/
def jsTrim (s : String) : String :=
  String.mk (trimL s.data)

/-- Model of JavaScript String.prototype.toLowerCase (ASCII fragment). -/
def jsToLower (s : String) : String :=
  String.mk (s.data.map Char.toLower)

/-- Substring test on character lists: model of JavaScript
String.prototype.includes. -/
def containsSub (hay needle : List Char) : Bool :=
  match hay with
  | [] => needle.isEmpty
  | c :: t => needle.isPrefixOf (c :: t) || containsSub t needle

/-- Model of JavaScript hay.includes(needle) on strings. -/
def strIncludes (hay needle : String) : Bool :=
  containsSub hay.data needle.data

/- ===================== Data model (src/types/spec.ts) ============== -/

/-- ProcessingMetadata from src/types/spec.ts.  In the source
refinement_method is an optional field assigned after createMetadata
runs, hence an Option here. -/
structure ProcessingMetadata where
  provider : String
  model : String
  heuristic_confidence : ℚ
  ai_refinement_applied : Bool
  cache_hit : Bool
  refinement_method : Option String
deriving DecidableEq

/-- SpecMetadata from src/types/spec.ts (architecture_decision, unused
by the pipeline under study, is omitted). -/
structure SpecMetadata where
  spec_version : String
  generated_by : String
  generated_at : String
  input_hash : String
  processing : ProcessingMetadata
deriving DecidableEq

/-- VibeSpec from src/types/spec.ts, restricted to the fields the
pipeline reads or writes (the enhanced fullstack fields are never
touched by the processor, the cache, or the fallback paths). -/
structure VibeSpec where
  title : String
  domain : String
  description : String
  requirements : List String
  components : List String
  tech_stack : List String
  acceptance_criteria : List String
  ai_guidance : String
  metadata : Option SpecMetadata := none
deriving DecidableEq

/- ===================== LRU cache (src/utils/cache.ts) ============== -/

/-- CacheStats from src/utils/cache.ts. -/
structure CacheStatsM where
  size : Nat
  maxSize : Nat
  hits : Nat
  misses : Nat
  evictions : Nat
deriving DecidableEq

/-- LRUCache state: the entry list is in Map insertion order, oldest
(least recently used) first.  sizeStat mirrors the stats.size field the
source maintains separately from the Map itself. -/
structure LRUCache where
  entries : List (String × VibeSpec)
  maxSize : Nat
  sizeStat : Nat
  hits : Nat
  misses : Nat
  evictions : Nat
deriving DecidableEq

/-- The LRUCache constructor. -/
def LRUCache.fresh (maxSize : Nat) : LRUCache :=
  { entries := [], maxSize := maxSize, sizeStat := 0,
    hits := 0, misses := 0, evictions := 0 }

/-- generateKey from src/utils/cache.ts: normalize (trim, lowercase),
join with provider and model, hash.  The SHA-256 digest is modelled as
the identity on the hashed data string. -/
def generateKey (input provider model : String) : String :=
  jsToLower (jsTrim input) ++ "::" ++ provider ++ "::" ++ model

/-- Map.get on the modelled entry list. -/
def lookupEntry (key : String) (entries : List (String × VibeSpec)) :
    Option VibeSpec :=
  (entries.find? (fun e => e.1 == key)).map (fun e => e.2)

/-- Key-level body of LRUCache.get: on a hit the entry is deleted and
re-inserted at the most-recently-used end and hits increments; on a
miss only misses increments. -/
def LRUCache.getK (c : LRUCache) (key : String) :
    Option VibeSpec × LRUCache :=
  match lookupEntry key c.entries with
  | some v =>
      (some v,
        { c with
          entries := (c.entries.filter (fun e => e.1 != key)) ++ [(key, v)],
          hits := c.hits + 1 })
  | none => (none, { c with misses := c.misses + 1 })

/-- Key-level body of LRUCache.set: delete an existing entry for the
key, evict the oldest entry when at capacity (the source skips the
eviction when the oldest key is falsy, i.e. the empty string), append
the new entry, and refresh stats.size. -/
def LRUCache.setK (c : LRUCache) (key : String) (v : VibeSpec) : LRUCache :=
  let afterDelete :=
    if c.entries.any (fun e => e.1 == key) then
      c.entries.filter (fun e => e.1 != key)
    else c.entries
  let step :=
    if c.maxSize ≤ afterDelete.length then
      match afterDelete with
      | [] => (afterDelete, c.evictions)
      | (k0, v0) :: rest =>
          if k0 ≠ "" then (rest, c.evictions + 1)
          else ((k0, v0) :: rest, c.evictions)
    else (afterDelete, c.evictions)
  let newEntries := step.1 ++ [(key, v)]
  { c with entries := newEntries, evictions := step.2,
           sizeStat := newEntries.length }

/-- LRUCache.get from src/utils/cache.ts. -/
def LRUCache.get (c : LRUCache) (input provider model : String) :
    Option VibeSpec × LRUCache :=
  c.getK (generateKey input provider model)

/-- LRUCache.set from src/utils/cache.ts. -/
def LRUCache.set (c : LRUCache) (input provider model : String)
    (v : VibeSpec) : LRUCache :=
  c.setK (generateKey input provider model) v

/-- LRUCache.clear from src/utils/cache.ts. -/
def LRUCache.clear (c : LRUCache) : LRUCache :=
  { c with entries := [], sizeStat := 0, hits := 0, misses := 0,
           evictions := 0 }

/-- LRUCache.getStats from src/utils/cache.ts. -/
def LRUCache.getStats (c : LRUCache) : CacheStatsM :=
  { size := c.sizeStat, maxSize := c.maxSize, hits := c.hits,
    misses := c.misses, evictions := c.evictions }

/-- LRUCache.size from src/utils/cache.ts. -/
def LRUCache.size (c : LRUCache) : Nat :=
  c.entries.length

/-- Fold a list of key/value pairs into the cache with setK. -/
def insertAll (c : LRUCache) (kvs : List (String × VibeSpec)) : LRUCache :=
  kvs.foldl (fun acc kv => acc.setK kv.1 kv.2) c

/-- Insert the listed pairs, oldest first, into a fresh cache of
capacity N. -/
def runInserts (N : Nat) (kvs : List (String × VibeSpec)) : LRUCache :=
  insertAll (LRUCache.fresh N) kvs

/-- Insert the listed pairs, then read key k (refreshing its recency),
then insert one more pair. -/
def runInsertsGetSet (N : Nat) (kvs : List (String × VibeSpec))
    (k : String) (kl : String) (vl : VibeSpec) : LRUCache :=
  (((runInserts N kvs).getK k).2).setK kl vl

/-- One public cache operation (the API surface of src/utils/cache.ts
used by the processor). -/
inductive CacheOp where
  | get (input provider model : String)
  | set (input provider model : String) (v : VibeSpec)
  | clear
deriving DecidableEq

/-- Apply one cache operation to the state. -/
def applyOp (c : LRUCache) : CacheOp → LRUCache
  | CacheOp.get i p m => (c.get i p m).2
  | CacheOp.set i p m v => c.set i p m v
  | CacheOp.clear => c.clear

/-- Run a sequence of cache operations. -/
def runOps (c : LRUCache) (ops : List CacheOp) : LRUCache :=
  ops.foldl applyOp c

/-- Invariant carried through every cache operation: fixed capacity,
entry count bounded by it, and no entry stored under the empty key
(public-API keys are SHA-256 digests, never empty). -/
def CacheInv (M : Nat) (c : LRUCache) : Prop :=
  c.maxSize = M ∧ c.entries.length ≤ M ∧ ∀ e ∈ c.entries, e.1 ≠ ""

/- ================= Heuristic parser (src/core/heuristic-parser.ts) = -/

/-- The Domain union type from src/types/spec.ts. -/
inductive Domain where
  | frontend
  | backend
  | fullstack
  | mobile
  | infrastructure
  | testing
  | devops
  | data
deriving DecidableEq

/-- The literal name of a Domain value. -/
def domainName : Domain → String
  | Domain.frontend => "frontend"
  | Domain.backend => "backend"
  | Domain.fullstack => "fullstack"
  | Domain.mobile => "mobile"
  | Domain.infrastructure => "infrastructure"
  | Domain.testing => "testing"
  | Domain.devops => "devops"
  | Domain.data => "data"

/-- TECH_KEYWORDS from src/core/heuristic-parser.ts. -/
def TECH_KEYWORDS : List String :=
  ["react", "vue", "angular", "svelte", "next", "nuxt",
   "node", "express", "nestjs", "fastify", "koa",
   "django", "flask", "fastapi", "spring", "laravel",
   "postgres", "mysql", "mongodb", "redis", "elasticsearch",
   "docker", "kubernetes", "aws", "azure", "gcp",
   "typescript", "javascript", "python", "java", "go", "rust",
   "graphql", "rest", "grpc", "websocket",
   "jest", "mocha", "pytest", "junit"]

/-- DOMAIN_PATTERNS from src/core/heuristic-parser.ts. -/
def DOMAIN_PATTERNS : Domain → List String
  | Domain.frontend =>
      ["ui", "component", "dashboard", "page", "responsive", "interface",
       "form", "button", "modal", "layout"]
  | Domain.backend =>
      ["api", "endpoint", "database", "authentication", "service",
       "server", "auth", "jwt", "session"]
  | Domain.fullstack =>
      ["fullstack", "full-stack", "full stack", "end-to-end", "e2e"]
  | Domain.mobile =>
      ["mobile", "ios", "android", "app", "native", "react native",
       "flutter"]
  | Domain.infrastructure =>
      ["deployment", "ci/cd", "docker", "kubernetes", "infrastructure",
       "devops", "cloud"]
  | Domain.testing =>
      ["test", "testing", "qa", "validation", "coverage", "unit test",
       "integration test"]
  | Domain.devops =>
      ["pipeline", "automation", "monitoring", "logging", "deployment",
       "cicd"]
  | Domain.data =>
      ["analytics", "etl", "data pipeline", "warehouse", "bigquery",
       "spark", "airflow"]

/-- The declaration order of the domain score table in detectDomain
(identical to the key order of DOMAIN_PATTERNS). -/
def domainsInOrder : List Domain :=
  [Domain.frontend, Domain.backend, Domain.fullstack, Domain.mobile,
   Domain.infrastructure, Domain.testing, Domain.devops, Domain.data]

/-- ACTION_VERBS from src/core/heuristic-parser.ts. -/
def ACTION_VERBS : List String :=
  ["add", "create", "build", "implement", "develop",
   "update", "modify", "change", "edit",
   "delete", "remove",
   "display", "show", "render", "visualize",
   "handle", "process", "manage",
   "validate", "verify", "check",
   "integrate", "connect",
   "support", "enable", "allow"]

/-- Split a character list at maximal runs of separator characters:
the semantics of JavaScript String.prototype.split with a one-or-more
character-class regex. -/
def splitRunsGo (p : Char → Bool) (fuel : Nat) (acc : List Char)
    (l : List Char) : List (List Char) :=
  match fuel with
  | 0 => [acc.reverse]
  | fuel + 1 =>
      match l with
      | [] => [acc.reverse]
      | c :: rest =>
          if p c then acc.reverse :: splitRunsGo p fuel [] (rest.dropWhile p)
          else splitRunsGo p fuel (c :: acc) rest

/-- JavaScript text.split(regex of a one-or-more character class).
Fuel is the input length plus one; each step consumes at least one
character, so it never runs out. -/
def splitRuns (p : Char → Bool) (l : List Char) : List (List Char) :=
  splitRunsGo p (l.length + 1) [] l

/-- Sentence-terminal punctuation, the class of the split regex in
splitIntoSentences. -/
def isSentenceTerm (c : Char) : Bool :=
  c = '.' || c = '!' || c = '?'

/-- JavaScript word characters, the regex class backslash-w. -/
def isWordChar (c : Char) : Bool :=
  c.isAlpha || c.isDigit || c = '_'

namespace HeuristicParser

/-- splitIntoSentences: split on sentence punctuation, trim, drop
empties. -/
def splitIntoSentences (text : String) : List String :=
  (((splitRuns isSentenceTerm text.data).map
      (fun l => jsTrim (String.mk l))).filter (fun s => s.length > 0))

/-- capitalizeFirst from src/core/heuristic-parser.ts. -/
def capitalizeFirst (s : String) : String :=
  match s.data with
  | [] => s
  | c :: rest => String.mk (c.toUpper :: rest)

/-- extractTitle from src/core/heuristic-parser.ts. -/
def extractTitle (sentences : List String) : String :=
  match sentences with
  | [] => "Untitled Requirement"
  | first :: _ =>
      if first.length ≤ 60 then capitalizeFirst first
      else
        let words := (splitRuns isJsWS first.data).map String.mk
        capitalizeFirst (String.intercalate " " (words.take 8)) ++ "..."

/-- Score one domain: the number of its table keywords occurring as
substrings of the lowercased text. -/
def domainScore (lower : List Char) (d : Domain) : Nat :=
  ((DOMAIN_PATTERNS d).filter (fun kw => containsSub lower kw.data)).length

/-- Stable insertion into a list sorted by descending score: the model
of one step of the stable JavaScript Array.prototype.sort with
comparator (a, b) => b[1] - a[1]. -/
def insertByScoreDesc (x : Domain × Nat) :
    List (Domain × Nat) → List (Domain × Nat)
  | [] => [x]
  | y :: ys => if x.2 ≥ y.2 then x :: y :: ys else y :: insertByScoreDesc x ys

/-- Stable sort by descending score (stable sorts produce a unique
output, so insertion sort models the engine sort faithfully). -/
def sortByScoreDesc : List (Domain × Nat) → List (Domain × Nat)
  | [] => []
  | x :: xs => insertByScoreDesc x (sortByScoreDesc xs)

/-- detectDomain from src/core/heuristic-parser.ts: score every domain,
sort descending (stable), return the top entry when its score is
positive. -/
def detectDomain (text : String) : Option Domain :=
  match sortByScoreDesc (domainsInOrder.map
      (fun d => (d, domainScore (jsToLower text).data d))) with
  | [] => none
  | (d, s) :: _ => if s > 0 then some d else none

/-- generateDescription from src/core/heuristic-parser.ts. -/
def generateDescription (sentences : List String) : String :=
  match sentences with
  | [] => ""
  | _ =>
      let desc := String.intercalate ". " (sentences.take 3)
      if desc.length ≤ 500 then desc
      else String.mk (desc.data.take 497) ++ "..."

/-- Word-boundary test at the head of text for the pattern
backslash-b verb backslash-b (boundary before is handled by the
caller). -/
def matchWordHere (verb text : List Char) : Bool :=
  if verb.isPrefixOf text then
    match text.drop verb.length with
    | [] => true
    | c :: _ => !(isWordChar c)
  else false

/-- Scan for a whole-word occurrence; prevWord records whether the
previous character was a word character (boundary context). -/
def containsWordGo (verb : List Char) (prevWord : Bool) : List Char → Bool
  | [] => false
  | c :: rest =>
      ((!prevWord) && matchWordHere verb (c :: rest)) ||
        containsWordGo verb (isWordChar c) rest

/-- Model of new RegExp(backslash-b verb backslash-b, i).test(lower):
both the text and the verb are lowercase here, so the i flag is
inert. -/
def containsWord (text verb : List Char) : Bool :=
  containsWordGo verb false text

/-- The action-verb test inside extractRequirements. -/
def hasActionVerb (sentence : String) : Bool :=
  ACTION_VERBS.any (fun v => containsWord (jsToLower sentence).data v.data)

/-- extractRequirements from src/core/heuristic-parser.ts. -/
def extractRequirements (sentences : List String) : List String :=
  let requirements :=
    (sentences.filter
      (fun s => hasActionVerb s && decide (10 ≤ s.length))).map capitalizeFirst
  if requirements.isEmpty then sentences.map capitalizeFirst
  else requirements

/-- Greedily extend a capitalised run with further [A-Z][a-z]+
segments (the (?:[A-Z][a-z]+)* part of the component regex). -/
def parseCapRunGo (fuel : Nat) (acc : List Char) (l : List Char) :
    List Char × List Char :=
  match fuel with
  | 0 => (acc, l)
  | fuel + 1 =>
      match l with
      | [] => (acc, [])
      | c :: rest =>
          if c.isUpper then
            let lows := rest.takeWhile Char.isLower
            if lows.isEmpty then (acc, c :: rest)
            else parseCapRunGo fuel (acc ++ c :: lows)
              (rest.dropWhile Char.isLower)
          else (acc, c :: rest)

/-- Matches of the capitalised-word component regex
backslash-b [A-Z][a-z]+ (?:[A-Z][a-z]+)* backslash-b, scanning with a
fuel bound (each step consumes at least one character, so fuel = length
+ 1 never runs out). -/
def capMatchesGo (fuel : Nat) (prevWord : Bool) (l : List Char) :
    List (List Char) :=
  match fuel with
  | 0 => []
  | fuel + 1 =>
      match l with
      | [] => []
      | c :: rest =>
          if (!prevWord) && c.isUpper then
            let lows := rest.takeWhile Char.isLower
            if lows.isEmpty then capMatchesGo fuel (isWordChar c) rest
            else
              let body := parseCapRunGo
                ((rest.dropWhile Char.isLower).length + 1) (c :: lows)
                (rest.dropWhile Char.isLower)
              match body.2 with
              | [] => [body.1]
              | c2 :: _ =>
                  if isWordChar c2 then capMatchesGo fuel (isWordChar c) rest
                  else body.1 :: capMatchesGo fuel true body.2
          else capMatchesGo fuel (isWordChar c) rest

/-- All matches of the capitalised-word regex. -/
def capMatches (text : List Char) : List (List Char) :=
  capMatchesGo (text.length + 1) false text

/-- The suffix alternation of the component pattern
(Form|Table|List|Card|Modal|Panel|Service|Manager|Handler|Controller|View). -/
def COMPONENT_SUFFIXES : List String :=
  ["Form", "Table", "List", "Card", "Modal", "Panel", "Service",
   "Manager", "Handler", "Controller", "View"]

/-- Case-insensitive prefix test (the i flag of the suffix pattern). -/
def ciPrefix : List Char → List Char → Bool
  | [], _ => true
  | _ :: _, [] => false
  | a :: as, b :: bs => (a.toLower = b.toLower) && ciPrefix as bs

/-- First suffix of the alternation matching at offset j of the word
run; returns its length. -/
def trySuffixAt (run : List Char) (j : Nat) : Option Nat :=
  (COMPONENT_SUFFIXES.find? (fun w => ciPrefix w.data (run.drop j))).map
    (fun w => w.length)

/-- Backtracking of the greedy (backslash-w)+ : try split points from
the largest down to 1, mirroring the regex engine. -/
def trySplitGo (run : List Char) : Nat → Option (Nat × Nat)
  | 0 => none
  | j + 1 =>
      match trySuffixAt run (j + 1) with
      | some len => some (j + 1, len)
      | none => trySplitGo run j

/-- Matches of the suffix component pattern
(backslash-w)+(?:Form|...|View) with the gi flags, scanning with a fuel
bound. -/
def suffixMatchesGo (fuel : Nat) (l : List Char) : List (List Char) :=
  match fuel with
  | 0 => []
  | fuel + 1 =>
      match l with
      | [] => []
      | c :: rest =>
          if isWordChar c then
            let run := (c :: rest).takeWhile isWordChar
            let after := (c :: rest).dropWhile isWordChar
            match trySplitGo run (run.length - 1) with
            | some (j, len) =>
                (run.take (j + len)) ::
                  suffixMatchesGo fuel (run.drop (j + len) ++ after)
            | none => suffixMatchesGo fuel rest
          else suffixMatchesGo fuel rest

/-- Ordered JavaScript Set insertion. -/
def setAdd (l : List String) (x : String) : List String :=
  if l.contains x then l else l ++ [x]

/-- extractComponents from src/core/heuristic-parser.ts: capitalised
words, then suffix-pattern matches, deduplicated in insertion order and
limited to 10. -/
def extractComponents (text : String) : List String :=
  let capitalizedWords := (capMatches text.data).map String.mk
  let suffixWords :=
    (suffixMatchesGo (text.data.length + 1) text.data).map String.mk
  ((capitalizedWords ++ suffixWords).foldl setAdd []).take 10

/-- detectTechStack from src/core/heuristic-parser.ts. -/
def detectTechStack (words : List String) : List String :=
  words.foldl
    (fun acc w =>
      let lower := jsToLower w
      if TECH_KEYWORDS.contains lower then setAdd acc (capitalizeFirst lower)
      else acc) []

/-- The modal/obligation markers of extractAcceptanceCriteria. -/
def CRITERIA_MARKERS : List String :=
  ["should", "must", "needs to", "has to", "required to"]

/-- extractAcceptanceCriteria from src/core/heuristic-parser.ts. -/
def extractAcceptanceCriteria (sentences : List String) : List String :=
  (sentences.filter
    (fun s => CRITERIA_MARKERS.any (fun m => strIncludes (jsToLower s) m))).map
    capitalizeFirst

/-- calculateConfidence from src/core/heuristic-parser.ts (IEEE
doubles modelled as rationals; the operations used are exact on these
small decimal values). -/
def calculateConfidence (text : String) : ℚ :=
  let lower := jsToLower text
  let s1 : ℚ :=
    (if 100 < text.length then (2 : ℚ)/10 else 0) +
    (if 200 < text.length then (1 : ℚ)/10 else 0)
  let techCount := (TECH_KEYWORDS.filter (fun k => strIncludes lower k)).length
  let s2 := s1 + min ((techCount : ℚ) * ((1 : ℚ)/10)) ((3 : ℚ)/10)
  let actionCount := (ACTION_VERBS.filter (fun v => strIncludes lower v)).length
  let s3 := s2 + min ((actionCount : ℚ) * ((5 : ℚ)/100)) ((2 : ℚ)/10)
  let domainKeywords := (domainsInOrder.map DOMAIN_PATTERNS).flatten
  let domainCount :=
    (domainKeywords.filter (fun k => strIncludes lower k)).length
  let s4 := s3 + min ((domainCount : ℚ) * ((5 : ℚ)/100)) ((2 : ℚ)/10)
  min s4 1

end HeuristicParser

/-- HeuristicOutput from src/types/spec.ts. -/
structure HeuristicOutput where
  title : String
  domain : Option Domain
  description : String
  requirements : List String
  components : List String
  tech_stack : List String
  acceptance_criteria : List String
  confidence : ℚ
deriving DecidableEq

namespace HeuristicParser

/-- HeuristicParser.parse from src/core/heuristic-parser.ts. -/
def parse (input : String) : Except String HeuristicOutput :=
  let normalized := jsTrim input
  if normalized.length < 20 then
    Except.error "Input too short. Minimum 20 characters required."
  else
    let sentences := splitIntoSentences normalized
    let words := (splitRuns isJsWS (jsToLower normalized).data).map String.mk
    Except.ok
      { title := extractTitle sentences
        domain := detectDomain normalized
        description := generateDescription sentences
        requirements := extractRequirements sentences
        components := extractComponents normalized
        tech_stack := detectTechStack words
        acceptance_criteria := extractAcceptanceCriteria sentences
        confidence := calculateConfidence normalized }

end HeuristicParser

/-- Modelled from the spec sentence for domain detection: pick the
highest-scoring domain, ties broken by table declaration order,
undefined exactly when all scores are zero.  earliestMax returns the
first entry of maximal score in declaration order. -/
def earliestMax : List (Domain × Nat) → Option (Domain × Nat)
  | [] => none
  | x :: xs =>
      match earliestMax xs with
      | none => some x
      | some m => if x.2 ≥ m.2 then some x else some m

/-- The spec-side reading of domain detection (used for the refinement
comparison in claim C7). -/
def detectDomainSpec (text : String) : Option Domain :=
  match earliestMax (domainsInOrder.map
      (fun d => (d, HeuristicParser.domainScore (jsToLower text).data d))) with
  | none => none
  | some (d, s) => if 0 < s then some d else none

/- ========= OpenRouter JSON repair helpers (src/core/ai-adapters.ts) = -/

/-- Count the occurrences of one character (the model of
text.match(/c/g).length with a single-character pattern). -/
def countChar (c : Char) (l : List Char) : Nat :=
  (l.filter (fun x => x = c)).length

namespace OpenRouterAdapter

/-- repairIncompleteJson from src/core/ai-adapters.ts (strategy 6,
closure repair): trim, count braces, brackets and quotes, append one
closing quote when the quote count is odd, then the missing closing
brackets, then the missing closing braces.  The JavaScript loops run
zero times when the difference is negative, which Nat subtraction
models exactly. -/
def repairIncompleteJson (s : String) : String :=
  let repaired := jsTrim s
  let openBraces := countChar '{' repaired.data
  let closeBraces := countChar '}' repaired.data
  let openBrackets := countChar '[' repaired.data
  let closeBrackets := countChar ']' repaired.data
  let quotes := countChar '"' repaired.data
  let r1 := if quotes % 2 ≠ 0 then repaired ++ "\"" else repaired
  let r2 := r1 ++ String.mk (List.replicate (openBrackets - closeBrackets) ']')
  r2 ++ String.mk (List.replicate (openBraces - closeBraces) '}')

/-- The Bool predicate of the regex classes matching non-quote
characters inside the key/value capture groups. -/
def notQuote (c : Char) : Bool :=
  c != '"'

/-- One attempt of the fixUnescapedQuotes regex at the current
position.  The pattern is a quote, a non-empty run of non-quotes (the
key), a quote, a colon, optional whitespace, a quote, a possibly empty
run of non-quotes (the value), and a quote.  With these character
classes the regex match is deterministic, so a direct scanner is a
faithful model.  Returns (matched text, key, value, rest-of-input). -/
def tryMatchKV (l : List Char) :
    Option (List Char × List Char × List Char × List Char) :=
  match l with
  | '"' :: rest1 =>
      let key := rest1.takeWhile notQuote
      let rest2 := rest1.dropWhile notQuote
      if key.isEmpty then none
      else
        match rest2 with
        | '"' :: ':' :: rest3 =>
            let wsp := rest3.takeWhile isJsWS
            let rest4 := rest3.dropWhile isJsWS
            match rest4 with
            | '"' :: rest5 =>
                let value := rest5.takeWhile notQuote
                let rest6 := rest5.dropWhile notQuote
                match rest6 with
                | '"' :: rest7 =>
                    some ('"' :: key ++ '"' :: ':' :: wsp ++ '"' :: value ++
                        ['"'],
                      key, value, rest7)
                | _ => none
            | _ => none
        | _ => none
  | _ => none

/-- The replacement callback of fixUnescapedQuotes: escape the quotes
of the value unless it contains none or contains an already-escaped
quote; otherwise return the match unchanged.  (The captured value group
matches [^"]*, so it can never contain a quote and the first condition
is unsatisfiable — the code's own doc comment nevertheless promises the
escaping behaviour.) -/
def fuqCallback (matched key value : List Char) : List Char :=
  if value.contains '"' && !(containsSub value ['\\', '"']) then
    '"' :: key ++ '"' :: ':' :: ' ' ::
      '"' :: ((value.map
        (fun c => if c = '"' then ['\\', '"'] else [c])).flatten) ++ ['"']
  else matched

/-- Global regex replace scan of fixUnescapedQuotes: try a match at
each position, emit the callback result and continue after the match,
or advance one character.  Fuel is the input length plus one; every
step consumes at least one character, so it never runs out. -/
def fuqGo (fuel : Nat) (l : List Char) : List Char :=
  match fuel with
  | 0 => l
  | fuel + 1 =>
      match l with
      | [] => []
      | c :: cs =>
          match tryMatchKV (c :: cs) with
          | some (matched, key, value, rest) =>
              fuqCallback matched key value ++ fuqGo fuel rest
          | none => c :: fuqGo fuel cs

/-- fixUnescapedQuotes from src/core/ai-adapters.ts (strategy 3,
quote-escaping repair). -/
def fixUnescapedQuotes (s : String) : String :=
  String.mk (fuqGo (s.data.length + 1) s.data)

end OpenRouterAdapter

/- ======= Processor orchestration (src/core/processor.ts, wizard.ts) = -/

/-- Split at every occurrence of one separator character (JavaScript
String.prototype.split with a plain character, no run-collapsing). -/
def splitChar (sep : Char) : List Char → List (List Char) :=
  go []
where
  go (acc : List Char) : List Char → List (List Char)
    | [] => [acc.reverse]
    | c :: rest =>
        if c = sep then acc.reverse :: go [] rest
        else go (c :: acc) rest

/-- The inquirer filter used for comma-separated answers: split on
commas, trim each part, drop empties. -/
def splitCommaFilter (s : String) : List String :=
  ((splitChar ',' s.data).map (fun l => jsTrim (String.mk l))).filter
    (fun t => t.length > 0)

/-- The answers a user gives to the wizard prompts (each is the final
accepted answer; inquirer validation constraints appear as hypotheses
in the theorems). -/
structure WizardAnswers where
  title : String
  domain : String
  description : String
  editRequirements : Bool
  newRequirements : String
  techStack : String
  components : String
  addCriteria : Bool
  criteria : String
  aiGuidance : String
deriving DecidableEq

/-- SpecWizard.refine from src/core/wizard.ts, as a function of the
prompt answers.  detectedReqs is heuristicOutput.requirements: the
JavaScript fallback expression (requirements || extracted) never takes
its right branch because an array is always truthy. -/
def SpecWizard.refine (_input : String) (heuristicOutput : HeuristicOutput)
    (a : WizardAnswers) : VibeSpec :=
  let detectedReqs := heuristicOutput.requirements
  let requirements :=
    if a.editRequirements then
      ((splitChar '\n' a.newRequirements.data).map
        (fun l => jsTrim (String.mk l))).filter (fun t => t.length > 0)
    else detectedReqs
  { title := a.title
    domain := a.domain
    description := a.description
    requirements := requirements
    components := splitCommaFilter a.components
    tech_stack := splitCommaFilter a.techStack
    acceptance_criteria := if a.addCriteria then splitCommaFilter a.criteria
      else []
    ai_guidance := a.aiGuidance
    metadata := none }

/-- The per-call environment of Processor.process: resolved provider
and model, the cache switch, the outcome of the provider request
(none = any throw inside the try block: missing token, transport
error, empty response, or unrecoverable parse failure), whether the
wizard can run (enableWizard together with an interactive terminal),
the user's confirm answer, the wizard answers, and the metadata
timestamp. -/
structure ProcEnv where
  provider : String
  model : String
  useCache : Bool
  aiRaw : Option VibeSpec
  wizardAvailable : Bool
  wizardAccepted : Bool
  answers : WizardAnswers
  now : String
deriving DecidableEq

/-- The mandatory-field validation every adapter's parseResponse
performs (JavaScript truthiness: a string is truthy iff non-empty; the
requirements check !parsed.requirements never fires for an array
value, so only the three string fields are effective). -/
def validateFields (s : VibeSpec) : Bool :=
  s.title != "" && s.domain != "" && s.description != ""

/-- JavaScript x || d on strings (d non-empty in every use below). -/
def jsOrStr (x d : String) : String :=
  if x = "" then d else x

namespace Processor

/-- Processor.heuristicToSpec from src/core/processor.ts. -/
def heuristicToSpec (h : HeuristicOutput) : VibeSpec :=
  { title := jsOrStr h.title "Untitled Requirement"
    domain := match h.domain with
      | none => "fullstack"
      | some d => jsOrStr (domainName d) "fullstack"
    description := jsOrStr h.description "No description available"
    requirements := h.requirements
    components := h.components
    tech_stack := h.tech_stack
    acceptance_criteria := h.acceptance_criteria
    ai_guidance :=
      "Generated using heuristic parsing only. Consider refining manually."
    metadata := none }

/-- Processor.createMetadata from src/core/processor.ts (SHA-256 of
the normalized input modelled as the identity; generated_at supplied by
the environment). -/
def createMetadata (input provider model : String) (conf : ℚ)
    (aiApplied cacheHit : Bool) (now : String) : SpecMetadata :=
  { spec_version := "1.0.0"
    generated_by := "vibes-cli v5.0.0"
    generated_at := now
    input_hash := jsToLower (jsTrim input)
    processing :=
      { provider := provider
        model := model
        heuristic_confidence := conf
        ai_refinement_applied := aiApplied
        cache_hit := cacheHit
        refinement_method := none } }

/-- Attach metadata and then assign
spec.metadata.processing.refinement_method, as the source does after
each createMetadata call. -/
def withMetadata (s : VibeSpec) (md : SpecMetadata) (method : String) :
    VibeSpec :=
  let proc := { md.processing with refinement_method := some method }
  let md2 := { md with processing := proc }
  { s with metadata := some md2 }

/-- The refinement stage of Processor.process: the try block around the
adapter, and the catch block with the wizard and heuristic fallbacks.
Returns the spec together with the aiRefinementApplied flag (note the
source sets that flag to true on the wizard path too).  The source's
two textually identical heuristic-fallback branches (wizard declined /
wizard unavailable) collapse into the single else here. -/
def refineStage (normalized : String) (h : HeuristicOutput)
    (env : ProcEnv) : VibeSpec × Bool :=
  match env.aiRaw with
  | some s =>
      if validateFields s then
        (withMetadata s
          (createMetadata normalized env.provider env.model h.confidence
            true false env.now) "ai", true)
      else
        fallbackStage normalized h env
  | none => fallbackStage normalized h env
where
  fallbackStage (normalized : String) (h : HeuristicOutput)
      (env : ProcEnv) : VibeSpec × Bool :=
    if env.wizardAvailable && env.wizardAccepted then
      (withMetadata (SpecWizard.refine normalized h env.answers)
        (createMetadata normalized env.provider env.model h.confidence
          true false env.now) "wizard", true)
    else
      (withMetadata (heuristicToSpec h)
        (createMetadata normalized env.provider env.model h.confidence
          false false env.now) "heuristic", false)

/-- Processor.process from src/core/processor.ts: length gate,
normalization, cache lookup, heuristic parse, refinement with
fallbacks, and conditional cache insertion (the source caches whenever
aiRefinementApplied is true, which includes the wizard path). -/
def process (input : String) (env : ProcEnv) (cache : LRUCache) :
    Except String (VibeSpec × LRUCache) :=
  if (jsTrim input).length < 20 then
    Except.error "Input too short. Minimum 20 characters required."
  else
    let normalized := jsTrim input
    match (if env.useCache then
        cache.get normalized env.provider env.model
      else (none, cache)) with
    | (some cached, c1) => Except.ok (cached, c1)
    | (none, c1) =>
        match HeuristicParser.parse normalized with
        | Except.error e => Except.error e
        | Except.ok h =>
            let r := refineStage normalized h env
            Except.ok (r.1,
              if env.useCache && r.2 then
                c1.set normalized env.provider env.model r.1
              else c1)

end Processor

/-- A concrete spec value used by witness and counterexample
theorems. -/
def demoSpec : VibeSpec :=
  { title := "Demo title", domain := "backend",
    description := "Demo description", requirements := ["Build the demo"],
    components := [], tech_stack := [], acceptance_criteria := [],
    ai_guidance := "" }

/-- Concrete wizard answers satisfying every inquirer validator. -/
def demoAnswers : WizardAnswers :=
  { title := "Todo app spec"
    domain := "frontend"
    description := "A simple todo application"
    editRequirements := false
    newRequirements := ""
    techStack := "react, node"
    components := "TodoList"
    addCriteria := true
    criteria := "Tests pass"
    aiGuidance := "hints" }

/-- Environment of a run in which the provider request fails and the
wizard is unavailable: the heuristic-only fallback. -/
def demoEnvHeuristic : ProcEnv :=
  { provider := "openrouter"
    model := "m1"
    useCache := false
    aiRaw := none
    wizardAvailable := false
    wizardAccepted := false
    answers := demoAnswers
    now := "t0" }

/-- Environment of a run in which the provider request fails, the
wizard is available and the user accepts it, with caching enabled. -/
def demoEnvWizard : ProcEnv :=
  { demoEnvHeuristic with
    useCache := true
    wizardAvailable := true
    wizardAccepted := true }

/-- A provider payload passing the mandatory-field validation. -/
def demoAiSpec : VibeSpec :=
  { title := "AI title", domain := "backend", description := "AI desc",
    requirements := ["r1"], components := [], tech_stack := [],
    acceptance_criteria := [], ai_guidance := "g" }

/-- Environment of a run in which refinement succeeds, with caching
enabled. -/
def demoEnvAi : ProcEnv :=
  { demoEnvHeuristic with useCache := true, aiRaw := some demoAiSpec }

end Vibespec

namespace Vibespec

/- ===================== LRU cache lemmas ============================ -/

theorem lookupEntry_eq_none_iff (k : String) (l : List (String × VibeSpec)) :
    lookupEntry k l = none ↔ ∀ e ∈ l, e.1 ≠ k := by
  simp [lookupEntry, List.find?_eq_none]

theorem lookupEntry_cons_self (k : String) (v : VibeSpec)
    (t : List (String × VibeSpec)) :
    lookupEntry k ((k, v) :: t) = some v := by
  simp [lookupEntry]

theorem lookupEntry_append_left (k : String)
    (l₁ l₂ : List (String × VibeSpec)) (h : ∀ e ∈ l₁, e.1 ≠ k) :
    lookupEntry k (l₁ ++ l₂) = lookupEntry k l₂ := by
  induction l₁ with
  | nil => rfl
  | cons e t ih =>
      have he : (e.1 == k) = false := by
        simpa using h e (List.mem_cons_self e t)
      simp only [List.cons_append, lookupEntry, List.find?_cons, he]
      exact ih fun x hx => h x (List.mem_cons_of_mem e hx)

theorem lookupEntry_of_mem_nodup {l : List (String × VibeSpec)}
    {kv : String × VibeSpec} (hnd : (l.map Prod.fst).Nodup) (hm : kv ∈ l) :
    lookupEntry kv.1 l = some kv.2 := by
  induction l with
  | nil => cases hm
  | cons e t ih =>
      rcases List.mem_cons.mp hm with hm | hm
      · subst hm
        exact lookupEntry_cons_self kv.1 kv.2 t
      · have hne : e.1 ≠ kv.1 := by
          have h1 : e.1 ∉ t.map Prod.fst := (List.nodup_cons.mp hnd).1
          have h2 : kv.1 ∈ t.map Prod.fst := List.mem_map_of_mem Prod.fst hm
          intro h
          exact h1 (h ▸ h2)
        have he : (e.1 == kv.1) = false := by simpa using hne
        simp only [lookupEntry, List.find?_cons, he]
        exact ih (List.nodup_cons.mp hnd).2 hm

theorem filter_ne_eq_self {l : List (String × VibeSpec)} {k : String}
    (h : ∀ e ∈ l, e.1 ≠ k) :
    l.filter (fun e => e.1 != k) = l := by
  apply List.filter_eq_self.mpr
  intro a ha
  simpa using h a ha

theorem filter_ne_cons_self {k : String} {v : VibeSpec}
    {t : List (String × VibeSpec)} (h : ∀ e ∈ t, e.1 ≠ k) :
    ((k, v) :: t).filter (fun e => e.1 != k) = t := by
  simp [List.filter_cons, filter_ne_eq_self h]

theorem any_key_eq_false {l : List (String × VibeSpec)} {k : String}
    (h : ∀ e ∈ l, e.1 ≠ k) :
    l.any (fun e => e.1 == k) = false := by
  simp only [List.any_eq_false]
  intro e he
  simpa using h e he

/-- setK on a cache strictly below capacity, with a key not present:
plain append at the most-recently-used end, no eviction. -/
theorem setK_fresh (c : LRUCache) (k : String) (v : VibeSpec)
    (hfree : ∀ e ∈ c.entries, e.1 ≠ k)
    (hlt : c.entries.length < c.maxSize) :
    c.setK k v = { c with entries := c.entries ++ [(k, v)],
                          sizeStat := c.entries.length + 1 } := by
  have hany := any_key_eq_false hfree
  have hle : ¬ (c.maxSize ≤ c.entries.length) := by omega
  simp [LRUCache.setK, hany, hle]

/-- setK on a cache at capacity, with a key not present and a non-empty
oldest key: the oldest entry is evicted, evictions increments. -/
theorem setK_full_evict (c : LRUCache) (k : String) (v : VibeSpec)
    (k0 : String) (v0 : VibeSpec) (t : List (String × VibeSpec))
    (hshape : c.entries = (k0, v0) :: t)
    (hfree : ∀ e ∈ c.entries, e.1 ≠ k)
    (hfull : c.maxSize ≤ c.entries.length)
    (h0 : k0 ≠ "") :
    c.setK k v = { c with entries := t ++ [(k, v)],
                          evictions := c.evictions + 1,
                          sizeStat := t.length + 1 } := by
  have hany := any_key_eq_false hfree
  rw [hshape] at hany hfull
  have hfull' : c.maxSize ≤ t.length + 1 := by simpa using hfull
  simp [LRUCache.setK, hshape, hany, hfull', h0]

/-- getK on a present key: the entry moves to the most-recently-used
end and hits increments. -/
theorem getK_hit (c : LRUCache) (k : String) (v : VibeSpec)
    (h : lookupEntry k c.entries = some v) :
    c.getK k = (some v,
      { c with entries := c.entries.filter (fun e => e.1 != k) ++ [(k, v)],
               hits := c.hits + 1 }) := by
  simp [LRUCache.getK, h]

/-- Inserting pairwise-distinct fresh keys while there is room: the
entries are appended in order and no counter other than stats.size
changes. -/
theorem insertAll_fresh :
    ∀ (kvs : List (String × VibeSpec)) (c : LRUCache),
    (kvs.map Prod.fst).Nodup →
    (∀ kv ∈ kvs, ∀ e ∈ c.entries, e.1 ≠ kv.1) →
    c.entries.length + kvs.length ≤ c.maxSize →
    (insertAll c kvs).entries = c.entries ++ kvs ∧
    (insertAll c kvs).evictions = c.evictions ∧
    (insertAll c kvs).maxSize = c.maxSize ∧
    (insertAll c kvs).hits = c.hits ∧
    (insertAll c kvs).misses = c.misses := by
  intro kvs
  induction kvs with
  | nil => intro c _ _ _; simp [insertAll]
  | cons kv rest ih =>
      intro c hnd hfree hcap
      have hstep : insertAll c (kv :: rest) =
          insertAll (c.setK kv.1 kv.2) rest := rfl
      have hlt : c.entries.length < c.maxSize := by
        simp only [List.length_cons] at hcap; omega
      have hset := setK_fresh c kv.1 kv.2
        (fun e he => hfree kv (List.mem_cons_self kv rest) e he) hlt
      have hnd' : (rest.map Prod.fst).Nodup := by
        simp only [List.map_cons, List.nodup_cons] at hnd
        exact hnd.2
      have hnotin : kv.1 ∉ rest.map Prod.fst := by
        simp only [List.map_cons, List.nodup_cons] at hnd
        exact hnd.1
      have hfree' : ∀ kv' ∈ rest, ∀ e ∈ (c.setK kv.1 kv.2).entries,
          e.1 ≠ kv'.1 := by
        intro kv' hkv' e he
        rw [hset] at he
        simp only [List.mem_append, List.mem_singleton] at he
        rcases he with he | he
        · exact hfree kv' (List.mem_cons_of_mem kv hkv') e he
        · subst he
          intro h
          exact hnotin (h ▸ List.mem_map_of_mem Prod.fst hkv')
      have hcap' : (c.setK kv.1 kv.2).entries.length + rest.length ≤
          (c.setK kv.1 kv.2).maxSize := by
        rw [hset]
        simp only [List.length_append, List.length_singleton]
        simp only [List.length_cons] at hcap
        omega
      obtain ⟨h1, h2, h3, h4, h5⟩ := ih (c.setK kv.1 kv.2) hnd' hfree' hcap'
      rw [hstep]
      refine ⟨?_, ?_, ?_, ?_, ?_⟩
      · rw [h1, hset]; simp
      · rw [h2, hset]
      · rw [h3, hset]
      · rw [h4, hset]
      · rw [h5, hset]

theorem c6_insert_phase
    (N : Nat) (k0 : String) (v0 : VibeSpec)
    (front : List (String × VibeSpec)) (la : String × VibeSpec)
    (hlen : front.length + 1 = N)
    (hnd : (k0 :: (front.map Prod.fst ++ [la.1])).Nodup)
    (hk0 : k0 ≠ "") :
    (runInserts N ((k0, v0) :: (front ++ [la]))).entries = front ++ [la] ∧
    (runInserts N ((k0, v0) :: (front ++ [la]))).evictions = 1 ∧
    (runInserts N ((k0, v0) :: (front ++ [la]))).maxSize = N := by
  have hc1 := List.nodup_cons.mp hnd
  have hk0f : k0 ∉ front.map Prod.fst :=
    fun h => hc1.1 (List.mem_append_left _ h)
  have hk0la : k0 ≠ la.1 :=
    fun h => hc1.1 (List.mem_append_right _ (by simp [h]))
  have hndf : (front.map Prod.fst).Nodup := hc1.2.of_append_left
  have hdisj : ∀ a ∈ front.map Prod.fst, a ≠ la.1 := by
    intro a ha h
    exact (List.disjoint_of_nodup_append hc1.2) ha (by simp [h])
  have hndA : (((k0, v0) :: front).map Prod.fst).Nodup := by
    simp only [List.map_cons, List.nodup_cons]
    exact ⟨hk0f, hndf⟩
  have hfreshA := insertAll_fresh ((k0, v0) :: front) (LRUCache.fresh N)
    hndA (by intro kv _ e he; cases he)
    (by simp only [LRUCache.fresh, List.length_nil, List.length_cons]; omega)
  obtain ⟨hent, hev, hmax, -, -⟩ := hfreshA
  have hent' : (insertAll (LRUCache.fresh N) ((k0, v0) :: front)).entries =
      (k0, v0) :: front := by simpa using hent
  have hsplit : runInserts N ((k0, v0) :: (front ++ [la])) =
      (insertAll (LRUCache.fresh N) ((k0, v0) :: front)).setK la.1 la.2 := by
    show insertAll (LRUCache.fresh N) ((k0, v0) :: (front ++ [la])) = _
    unfold insertAll
    rw [show (k0, v0) :: (front ++ [la]) = ((k0, v0) :: front) ++ [la] by simp]
    rw [List.foldl_append]
    rfl
  have hfree : ∀ e ∈ (insertAll (LRUCache.fresh N) ((k0, v0) :: front)).entries,
      e.1 ≠ la.1 := by
    rw [hent']
    intro e he
    rcases List.mem_cons.mp he with rfl | he
    · exact fun h => hk0la h
    · exact hdisj e.1 (List.mem_map_of_mem Prod.fst he)
  have hfull : (insertAll (LRUCache.fresh N) ((k0, v0) :: front)).maxSize ≤
      (insertAll (LRUCache.fresh N) ((k0, v0) :: front)).entries.length := by
    rw [hent', hmax]
    simp only [List.length_cons, LRUCache.fresh]
    omega
  have hstep := setK_full_evict
    (insertAll (LRUCache.fresh N) ((k0, v0) :: front)) la.1 la.2
    k0 v0 front hent' hfree hfull hk0
  rw [hsplit, hstep]
  refine ⟨by simp, ?_, ?_⟩
  · simp only [hev]
    rfl
  · simpa using hmax

theorem c6_get_refresh_phase
    (N : Nat) (k0 k1 kl : String) (v0 v1 vl : VibeSpec)
    (mid : List (String × VibeSpec))
    (hlen : mid.length + 2 = N)
    (hnd : (k0 :: k1 :: (mid.map Prod.fst ++ [kl])).Nodup)
    (hk1 : k1 ≠ "") :
    (runInsertsGetSet N ((k0, v0) :: (k1, v1) :: mid) k0 kl vl).entries =
      (mid ++ [(k0, v0)]) ++ [(kl, vl)] ∧
    (runInsertsGetSet N ((k0, v0) :: (k1, v1) :: mid) k0 kl vl).evictions = 1 := by
  have hc1 := List.nodup_cons.mp hnd
  have hc2 := List.nodup_cons.mp hc1.2
  have hk01 : k0 ≠ k1 := fun h => hc1.1 (by simp [h])
  have hk0m : k0 ∉ mid.map Prod.fst :=
    fun h => hc1.1 (List.mem_cons_of_mem _ (List.mem_append_left _ h))
  have hk0l : k0 ≠ kl :=
    fun h => hc1.1 (List.mem_cons_of_mem _ (List.mem_append_right _ (by simp [h])))
  have hk1m : k1 ∉ mid.map Prod.fst :=
    fun h => hc2.1 (List.mem_append_left _ h)
  have hk1l : k1 ≠ kl :=
    fun h => hc2.1 (List.mem_append_right _ (by simp [h]))
  have hndm : (mid.map Prod.fst).Nodup := hc2.2.of_append_left
  have hdisj : ∀ a ∈ mid.map Prod.fst, a ≠ kl := by
    intro a ha h
    exact (List.disjoint_of_nodup_append hc2.2) ha (by simp [h])
  have hndA : (((k0, v0) :: (k1, v1) :: mid).map Prod.fst).Nodup := by
    simp only [List.map_cons, List.nodup_cons]
    refine ⟨?_, ?_, hndm⟩
    · intro h
      rcases List.mem_cons.mp h with h | h
      · exact hk01 h
      · exact hk0m h
    · exact hk1m
  have hfreshA := insertAll_fresh ((k0, v0) :: (k1, v1) :: mid)
    (LRUCache.fresh N) hndA (by intro kv _ e he; cases he)
    (by simp only [LRUCache.fresh, List.length_nil, List.length_cons]; omega)
  obtain ⟨hent, hev, hmax, -, -⟩ := hfreshA
  have hent' : (runInserts N ((k0, v0) :: (k1, v1) :: mid)).entries =
      (k0, v0) :: (k1, v1) :: mid := by simpa using hent
  have hlook : lookupEntry k0 (runInserts N ((k0, v0) :: (k1, v1) :: mid)).entries =
      some v0 := by
    rw [hent']
    exact lookupEntry_cons_self k0 v0 _
  have hhit := getK_hit (runInserts N ((k0, v0) :: (k1, v1) :: mid)) k0 v0 hlook
  have hfilter : ((runInserts N ((k0, v0) :: (k1, v1) :: mid)).entries.filter
      (fun e => e.1 != k0)) = (k1, v1) :: mid := by
    rw [hent']
    apply filter_ne_cons_self
    intro e he
    rcases List.mem_cons.mp he with rfl | he
    · exact fun h => hk01 h.symm
    · intro h
      exact hk0m (h ▸ List.mem_map_of_mem Prod.fst he)
  set cMid := ((runInserts N ((k0, v0) :: (k1, v1) :: mid)).getK k0).2 with hcMid
  have hentMid : cMid.entries = (k1, v1) :: (mid ++ [(k0, v0)]) := by
    rw [hcMid, hhit]
    simp [hfilter]
  have hevMid : cMid.evictions = (LRUCache.fresh N).evictions := by
    rw [hcMid, hhit]
    simpa using hev
  have hmaxMid : cMid.maxSize = N := by
    rw [hcMid, hhit]
    simpa using hmax
  have hfree : ∀ e ∈ cMid.entries, e.1 ≠ kl := by
    rw [hentMid]
    intro e he
    rcases List.mem_cons.mp he with rfl | he
    · exact fun h => hk1l h
    · rcases List.mem_append.mp he with he | he
      · exact hdisj e.1 (List.mem_map_of_mem Prod.fst he)
      · rcases List.mem_singleton.mp he with rfl
        exact fun h => hk0l h
  have hfull : cMid.maxSize ≤ cMid.entries.length := by
    rw [hentMid, hmaxMid]
    simp only [List.length_cons, List.length_append, List.length_singleton]
    omega
  have hstep := setK_full_evict cMid kl vl k1 v1 (mid ++ [(k0, v0)])
    hentMid hfree hfull hk1
  constructor
  · show (cMid.setK kl vl).entries = _
    rw [hstep]
  · show (cMid.setK kl vl).evictions = 1
    rw [hstep]
    simp only [hevMid]
    rfl

/-- C6: inserting N+1 distinct keys into an LRUCache of capacity N
evicts exactly one entry — the least recently accessed one, where both
get and set refresh an entry's recency — and stats().evictions
increments by exactly one.  The first four conjuncts treat the plain
insertion sequence: the size returns to N, evictions goes from 0 to 1,
exactly the first (least recently used) key is gone and every later key
is still present with its value.  The last conjunct shows the recency
refresh: reading the first key with get just before the final insert
makes the second key the eviction victim instead. -/
theorem lru_insert_capacity_eviction
    (N : Nat) (hN : 0 < N) (k0 : String) (v0 : VibeSpec)
    (rest : List (String × VibeSpec)) (hlen : rest.length = N)
    (hnd : (k0 :: rest.map Prod.fst).Nodup)
    (hne : ∀ k ∈ k0 :: rest.map Prod.fst, k ≠ "") :
    (runInserts N ((k0, v0) :: rest)).size = N ∧
    (runInserts N ((k0, v0) :: rest)).getStats.evictions =
      (LRUCache.fresh N).getStats.evictions + 1 ∧
    lookupEntry k0 (runInserts N ((k0, v0) :: rest)).entries = none ∧
    (∀ kv ∈ rest,
      lookupEntry kv.1 (runInserts N ((k0, v0) :: rest)).entries = some kv.2) ∧
    (∀ k1 v1 mid kl vl, rest = (k1, v1) :: (mid ++ [(kl, vl)]) →
      lookupEntry k0
        (runInsertsGetSet N ((k0, v0) :: (k1, v1) :: mid) k0 kl vl).entries
        = some v0 ∧
      lookupEntry k1
        (runInsertsGetSet N ((k0, v0) :: (k1, v1) :: mid) k0 kl vl).entries
        = none ∧
      (runInsertsGetSet N ((k0, v0) :: (k1, v1) :: mid) k0 kl vl).size = N ∧
      (runInsertsGetSet N ((k0, v0) :: (k1, v1) :: mid) k0 kl vl).getStats.evictions
        = 1) := by
  have hk0 : k0 ≠ "" := hne k0 (List.mem_cons_self _ _)
  rcases List.eq_nil_or_concat rest with hnil | ⟨front, la, hfr⟩
  case inl =>
    rw [hnil] at hlen
    simp at hlen
    omega
  rw [List.concat_eq_append] at hfr
  have hndA : (k0 :: (front.map Prod.fst ++ [la.1])).Nodup := by
    rw [hfr] at hnd
    simpa using hnd
  have hlenA : front.length + 1 = N := by
    rw [hfr] at hlen
    simpa using hlen
  obtain ⟨he, hev, hmax⟩ := c6_insert_phase N k0 v0 front la hlenA hndA hk0
  have hrw : (k0, v0) :: rest = (k0, v0) :: (front ++ [la]) := by rw [hfr]
  have hentr : (runInserts N ((k0, v0) :: rest)).entries = rest := by
    rw [hrw, he, hfr]
  refine ⟨?_, ?_, ?_, ?_, ?_⟩
  · show (runInserts N ((k0, v0) :: rest)).entries.length = N
    rw [hentr, hlen]
  · show (runInserts N ((k0, v0) :: rest)).evictions = _
    rw [hrw, hev]
    rfl
  · rw [hentr]
    apply (lookupEntry_eq_none_iff _ _).mpr
    intro e he'
    intro h
    exact (List.nodup_cons.mp hnd).1 (h ▸ List.mem_map_of_mem Prod.fst he')
  · intro kv hkv
    rw [hentr]
    exact lookupEntry_of_mem_nodup (List.nodup_cons.mp hnd).2 hkv
  · intro k1 v1 mid kl vl hr
    have hndB : (k0 :: k1 :: (mid.map Prod.fst ++ [kl])).Nodup := by
      rw [hr] at hnd
      simpa using hnd
    have hlenB : mid.length + 2 = N := by
      rw [hr] at hlen
      simp at hlen
      omega
    have hk1 : k1 ≠ "" := by
      apply hne k1
      rw [hr]
      simp
    obtain ⟨heB, hevB⟩ :=
      c6_get_refresh_phase N k0 k1 kl v0 v1 vl mid hlenB hndB hk1
    have hc1 := List.nodup_cons.mp hndB
    have hc2 := List.nodup_cons.mp hc1.2
    have hk01 : k0 ≠ k1 := fun h => hc1.1 (by simp [h])
    have hk0m : k0 ∉ mid.map Prod.fst :=
      fun h => hc1.1 (List.mem_cons_of_mem _ (List.mem_append_left _ h))
    have hk0l : k0 ≠ kl :=
      fun h => hc1.1 (List.mem_cons_of_mem _ (List.mem_append_right _ (by simp [h])))
    have hk1m : k1 ∉ mid.map Prod.fst :=
      fun h => hc2.1 (List.mem_append_left _ h)
    have hk1l : k1 ≠ kl :=
      fun h => hc2.1 (List.mem_append_right _ (by simp [h]))
    refine ⟨?_, ?_, ?_, ?_⟩
    · rw [heB]
      rw [List.append_assoc]
      rw [lookupEntry_append_left k0 mid _ ?_]
      · simp only [List.singleton_append]
        exact lookupEntry_cons_self k0 v0 _
      · intro e he'
        intro h
        exact hk0m (h ▸ List.mem_map_of_mem Prod.fst he')
    · rw [heB]
      apply (lookupEntry_eq_none_iff _ _).mpr
      intro e he'
      rcases List.mem_append.mp he' with he' | he'
      · rcases List.mem_append.mp he' with he' | he'
        · intro h
          exact hk1m (h ▸ List.mem_map_of_mem Prod.fst he')
        · rcases List.mem_singleton.mp he' with rfl
          exact fun h => hk01 (by simpa using h)
      · rcases List.mem_singleton.mp he' with rfl
        exact fun h => hk1l (by simpa using h.symm)
    · show (runInsertsGetSet N ((k0, v0) :: (k1, v1) :: mid) k0 kl vl).entries.length = N
      rw [heB]
      simp only [List.length_append, List.length_singleton]
      omega
    · show (runInsertsGetSet N ((k0, v0) :: (k1, v1) :: mid) k0 kl vl).evictions = 1
      exact hevB

theorem generateKey_ne_empty (i p m : String) : generateKey i p m ≠ "" := by
  intro h
  have h2 := congrArg String.length h
  simp only [generateKey, String.length_append] at h2
  have hc : ("::" : String).length = 2 := rfl
  have hz : ("" : String).length = 0 := rfl
  rw [hc, hz] at h2
  omega

theorem length_filter_lt_of_lookup (k : String) (v : VibeSpec)
    (l : List (String × VibeSpec)) (h : lookupEntry k l = some v) :
    (l.filter (fun e => e.1 != k)).length < l.length := by
  induction l with
  | nil => simp [lookupEntry] at h
  | cons e t ih =>
      by_cases he : (e.1 == k) = true
      · have hb : (e.1 != k) = false := by
          simp only [bne]
          simp [he]
        simp only [List.filter_cons, hb, Bool.false_eq_true, if_false,
          List.length_cons]
        exact Nat.lt_succ_of_le (List.length_filter_le _ _)
      · have hb : (e.1 != k) = true := by
          simp only [bne]
          simp [he]
        have h' : lookupEntry k t = some v := by
          simp only [lookupEntry, List.find?_cons, he] at h
          exact h
        simp only [List.filter_cons, hb, if_true, List.length_cons]
        exact Nat.succ_lt_succ (ih h')

theorem setK_maxSize (c : LRUCache) (k : String) (v : VibeSpec) :
    (c.setK k v).maxSize = c.maxSize := rfl

theorem setK_inv_aux (c : LRUCache) (k : String) (v : VibeSpec) (M : Nat)
    (hM : 0 < M) (hk : k ≠ "") (hmax : c.maxSize = M)
    (hkeys : ∀ e ∈ c.entries, e.1 ≠ "")
    (A : List (String × VibeSpec))
    (hAdef : (if c.entries.any (fun e => e.1 == k) then
        c.entries.filter (fun e => e.1 != k) else c.entries) = A)
    (hsub : ∀ e ∈ A, e ∈ c.entries)
    (hlenA : A.length ≤ M) :
    CacheInv M (c.setK k v) := by
  by_cases hfull : c.maxSize ≤ A.length
  · have hApos : 0 < A.length := by omega
    have hAne : A ≠ [] := by
      intro hAe
      rw [hAe] at hApos
      simp at hApos
    obtain ⟨e0, t, hAt⟩ := List.exists_cons_of_ne_nil hAne
    obtain ⟨k0, v0⟩ := e0
    subst hAt
    have h0 : k0 ≠ "" :=
      hkeys (k0, v0) (hsub _ (List.mem_cons_self _ _))
    have hent2 : (c.setK k v).entries = t ++ [(k, v)] := by
      simp only [LRUCache.setK, hAdef]
      rw [if_pos hfull]
      simp [h0]
    refine ⟨(setK_maxSize c k v).trans hmax, ?_, ?_⟩
    · rw [hent2]
      have hlA : ((k0, v0) :: t).length = t.length + 1 := rfl
      rw [hlA] at hlenA
      simp only [List.length_append, List.length_singleton]
      omega
    · rw [hent2]
      intro e he
      rcases List.mem_append.mp he with he | he
      · exact hkeys e (hsub e (List.mem_cons_of_mem _ he))
      · rcases List.mem_singleton.mp he with rfl
        exact hk
  · have hent2 : (c.setK k v).entries = A ++ [(k, v)] := by
      simp only [LRUCache.setK, hAdef]
      rw [if_neg hfull]
    refine ⟨(setK_maxSize c k v).trans hmax, ?_, ?_⟩
    · rw [hent2]
      simp only [List.length_append, List.length_singleton]
      rw [hmax] at hfull
      omega
    · rw [hent2]
      intro e he
      rcases List.mem_append.mp he with he | he
      · exact hkeys e (hsub e he)
      · rcases List.mem_singleton.mp he with rfl
        exact hk

theorem setK_inv {M : Nat} (c : LRUCache) (k : String) (v : VibeSpec)
    (hM : 0 < M) (hk : k ≠ "") (h : CacheInv M c) :
    CacheInv M (c.setK k v) := by
  obtain ⟨hmax, hlen, hkeys⟩ := h
  by_cases hany : c.entries.any (fun e => e.1 == k) = true
  · refine setK_inv_aux c k v M hM hk hmax hkeys
      (c.entries.filter (fun e => e.1 != k)) (if_pos hany)
      (fun e he => List.mem_of_mem_filter he) ?_
    calc (c.entries.filter (fun e => e.1 != k)).length
        ≤ c.entries.length := List.length_filter_le _ _
      _ ≤ M := hlen
  · exact setK_inv_aux c k v M hM hk hmax hkeys c.entries (if_neg hany)
      (fun e he => he) hlen

theorem getK_snd_inv {M : Nat} (c : LRUCache) (k : String)
    (hk : k ≠ "") (h : CacheInv M c) : CacheInv M (c.getK k).2 := by
  obtain ⟨hmax, hlen, hkeys⟩ := h
  cases hl : lookupEntry k c.entries with
  | none =>
      have : (c.getK k).2 = { c with misses := c.misses + 1 } := by
        simp [LRUCache.getK, hl]
      rw [this]
      exact ⟨hmax, hlen, hkeys⟩
  | some v =>
      have hrw := getK_hit c k v hl
      have : (c.getK k).2 =
          { c with entries := c.entries.filter (fun e => e.1 != k) ++ [(k, v)],
                   hits := c.hits + 1 } := by rw [hrw]
      rw [this]
      refine ⟨hmax, ?_, ?_⟩
      · have := length_filter_lt_of_lookup k v c.entries hl
        simp only [List.length_append, List.length_singleton]
        omega
      · intro e he
        rcases List.mem_append.mp he with he | he
        · exact hkeys e (List.mem_of_mem_filter he)
        · rcases List.mem_singleton.mp he with rfl
          exact hk

theorem applyOp_inv {M : Nat} (hM : 0 < M) (c : LRUCache) (op : CacheOp)
    (h : CacheInv M c) : CacheInv M (applyOp c op) := by
  cases op with
  | get i p m =>
      exact getK_snd_inv c (generateKey i p m) (generateKey_ne_empty i p m) h
  | set i p m v =>
      exact setK_inv c (generateKey i p m) v hM (generateKey_ne_empty i p m) h
  | clear =>
      refine ⟨h.1, ?_, ?_⟩
      · show (LRUCache.clear c).entries.length ≤ M
        simp [LRUCache.clear]
      · show ∀ e ∈ (LRUCache.clear c).entries, e.1 ≠ ""
        simp [LRUCache.clear]

theorem runOps_inv {M : Nat} (hM : 0 < M) :
    ∀ (ops : List CacheOp) (c : LRUCache),
    CacheInv M c → CacheInv M (runOps c ops) := by
  intro ops
  induction ops with
  | nil => intro c h; exact h
  | cons op rest ih =>
      intro c h
      exact ih (applyOp c op) (applyOp_inv hM c op h)

/-- Witness for C6 at capacity 2 with keys ka, kb, kc. -/
theorem lru_insert_capacity_eviction_witness :
    (runInserts 2 [("ka", demoSpec), ("kb", demoSpec), ("kc", demoSpec)]).size = 2 ∧
    (runInserts 2 [("ka", demoSpec), ("kb", demoSpec), ("kc", demoSpec)]).getStats.evictions =
      (LRUCache.fresh 2).getStats.evictions + 1 :=
  ⟨(lru_insert_capacity_eviction 2 (by decide) "ka" demoSpec
      [("kb", demoSpec), ("kc", demoSpec)] rfl (by decide) (by decide)).1,
   (lru_insert_capacity_eviction 2 (by decide) "ka" demoSpec
      [("kb", demoSpec), ("kc", demoSpec)] rfl (by decide) (by decide)).2.1⟩

/-- C8 counterexample: a cache constructed with capacity 0 exceeds its
capacity after a single set (the eviction is skipped on an empty map),
so the claimed invariant fails as stated for that capacity. -/
theorem cache_size_bound_counterexample :
    ¬ ((runOps (LRUCache.fresh 0) [CacheOp.set "hello there" "p" "m" demoSpec]).size ≤
        (LRUCache.fresh 0).maxSize) := by
  decide

/-- C8 (amended): for every cache constructed with positive capacity
maxSize, after any sequence of get, set, and clear operations the
number of stored entries never exceeds maxSize. -/
theorem cache_size_bound_of_pos_capacity (M : Nat) (hM : 0 < M)
    (ops : List CacheOp) :
    (runOps (LRUCache.fresh M) ops).size ≤ M := by
  have h := runOps_inv hM ops (LRUCache.fresh M)
    ⟨rfl, by simp [LRUCache.fresh], by intro e he; cases he⟩
  exact h.2.1

/-- Witness for the amended C8 at capacity 1 with a concrete operation
sequence. -/
theorem cache_size_bound_of_pos_capacity_witness :
    (runOps (LRUCache.fresh 1)
      [CacheOp.set "hello there" "p" "m" demoSpec,
       CacheOp.set "general request" "p" "m" demoSpec,
       CacheOp.get "hello there" "p" "m",
       CacheOp.clear]).size ≤ 1 :=
  cache_size_bound_of_pos_capacity 1 (by decide)
    [CacheOp.set "hello there" "p" "m" demoSpec,
     CacheOp.set "general request" "p" "m" demoSpec,
     CacheOp.get "hello there" "p" "m",
     CacheOp.clear]

/- ===================== Heuristic parser lemmas ===================== -/

theorem head_insertByScoreDesc (x : Domain × Nat) (l : List (Domain × Nat)) :
    (HeuristicParser.insertByScoreDesc x l).head? =
      some (match l.head? with
            | none => x
            | some y => if x.2 ≥ y.2 then x else y) := by
  cases l with
  | nil => rfl
  | cons y ys =>
      by_cases h : x.2 ≥ y.2 <;> simp [HeuristicParser.insertByScoreDesc, h]

theorem head_sortByScoreDesc (l : List (Domain × Nat)) :
    (HeuristicParser.sortByScoreDesc l).head? = earliestMax l := by
  induction l with
  | nil => rfl
  | cons x xs ih =>
      rw [show HeuristicParser.sortByScoreDesc (x :: xs) =
          HeuristicParser.insertByScoreDesc x
            (HeuristicParser.sortByScoreDesc xs) from rfl]
      rw [head_insertByScoreDesc, ih]
      cases hm : earliestMax xs with
      | none => simp [earliestMax, hm]
      | some m =>
          simp only [earliestMax, hm]
          by_cases hc : m.2 ≤ x.2 <;> simp [hc]

theorem earliestMax_ne_none (x : Domain × Nat) (xs : List (Domain × Nat)) :
    earliestMax (x :: xs) ≠ none := by
  simp only [earliestMax]
  cases earliestMax xs with
  | none => simp
  | some m => by_cases h : x.2 ≥ m.2 <;> simp [h]

theorem insertByScoreDesc_ne_nil (x : Domain × Nat) (l : List (Domain × Nat)) :
    HeuristicParser.insertByScoreDesc x l ≠ [] := by
  cases l with
  | nil => simp [HeuristicParser.insertByScoreDesc]
  | cons y ys =>
      by_cases h : x.2 ≥ y.2 <;> simp [HeuristicParser.insertByScoreDesc, h]

theorem earliestMax_spec :
    ∀ (l : List (Domain × Nat)) (m : Domain × Nat),
    earliestMax l = some m → m ∈ l ∧ ∀ y ∈ l, y.2 ≤ m.2 := by
  intro l
  induction l with
  | nil => intro m h; simp [earliestMax] at h
  | cons x xs ih =>
      intro m h
      simp only [earliestMax] at h
      cases hm : earliestMax xs with
      | none =>
          rw [hm] at h
          have hx : x = m := by injection h
          subst hx
          have hxs : xs = [] := by
            cases hxs : xs with
            | nil => rfl
            | cons a t => exact absurd (hxs ▸ hm) (earliestMax_ne_none a t)
          subst hxs
          exact ⟨List.mem_singleton_self x, by
            intro y hy
            rcases List.mem_singleton.mp hy with rfl
            exact le_rfl⟩
      | some m2 =>
          rw [hm] at h
          obtain ⟨hmem, hmax⟩ := ih m2 hm
          change (if x.2 ≥ m2.2 then some x else some m2) = some m at h
          by_cases hx : x.2 ≥ m2.2
          · rw [if_pos hx] at h
            have : x = m := by injection h
            subst this
            refine ⟨List.mem_cons_self _ _, ?_⟩
            intro y hy
            rcases List.mem_cons.mp hy with rfl | hy
            · exact le_rfl
            · exact le_trans (hmax y hy) hx
          · rw [if_neg hx] at h
            have : m2 = m := by injection h
            subst this
            refine ⟨List.mem_cons_of_mem _ hmem, ?_⟩
            intro y hy
            rcases List.mem_cons.mp hy with rfl | hy
            · exact le_of_not_le hx
            · exact hmax y hy

/-- C7: for every input text, domain detection scores each domain by
counting which keywords of the static per-domain table occur in the
lowercased text, returns the highest-scoring domain with ties broken by
the table declaration order (formalised by detectDomainSpec, the
spec-side reading), and returns none exactly when every domain scores
zero. -/
theorem detectDomain_matches_spec (text : String) :
    HeuristicParser.detectDomain text = detectDomainSpec text ∧
    (HeuristicParser.detectDomain text = none ↔
      ∀ d ∈ domainsInOrder,
        HeuristicParser.domainScore (jsToLower text).data d = 0) := by
  have hh := head_sortByScoreDesc (domainsInOrder.map
      (fun d => (d, HeuristicParser.domainScore (jsToLower text).data d)))
  cases hs : HeuristicParser.sortByScoreDesc (domainsInOrder.map
      (fun d => (d, HeuristicParser.domainScore (jsToLower text).data d))) with
  | nil =>
      exfalso
      have h8 : domainsInOrder.map
          (fun d => (d, HeuristicParser.domainScore (jsToLower text).data d)) =
          (Domain.frontend,
            HeuristicParser.domainScore (jsToLower text).data Domain.frontend) ::
          (domainsInOrder.tail.map
            (fun d => (d, HeuristicParser.domainScore (jsToLower text).data d))) := by
        rfl
      rw [h8] at hs
      exact insertByScoreDesc_ne_nil _ _ hs
  | cons p rest =>
      obtain ⟨d, s⟩ := p
      rw [hs] at hh
      have h2 : earliestMax (domainsInOrder.map
          (fun dd => (dd, HeuristicParser.domainScore (jsToLower text).data dd))) =
          some (d, s) := by
        rw [← hh]
        rfl
      obtain ⟨hmem, hmax⟩ := earliestMax_spec _ _ h2
      constructor
      · simp only [HeuristicParser.detectDomain, detectDomainSpec, hs, h2]
      · simp only [HeuristicParser.detectDomain, hs]
        constructor
        · intro hnone d' hd'
          have hsle : s = 0 := by
            by_cases h0 : s > 0
            · rw [if_pos h0] at hnone; cases hnone
            · omega
          have := hmax (d', HeuristicParser.domainScore (jsToLower text).data d')
            (List.mem_map_of_mem _ hd')
          simp only at this
          omega
        · intro hall
          have : s = 0 := by
            rcases List.mem_map.mp hmem with ⟨d0, hd0, heq⟩
            have := hall d0 hd0
            have hs0 : HeuristicParser.domainScore (jsToLower text).data d0 = s := by
              have := congrArg Prod.snd heq
              simpa using this
            omega
          rw [this]
          simp

theorem setAdd_nodup (l : List String) (x : String) (h : l.Nodup) :
    (HeuristicParser.setAdd l x).Nodup := by
  unfold HeuristicParser.setAdd
  split
  · exact h
  · rename_i hc
    have hx : x ∉ l := by simpa using hc
    simp [List.nodup_append, h, hx]

theorem foldl_setAdd_nodup (xs : List String) :
    ∀ acc : List String, acc.Nodup →
    (xs.foldl HeuristicParser.setAdd acc).Nodup := by
  induction xs with
  | nil => intro acc h; exact h
  | cons x rest ih =>
      intro acc h
      exact ih _ (setAdd_nodup acc x h)

theorem extractComponents_bounded_nodup (text : String) :
    (HeuristicParser.extractComponents text).length ≤ 10 ∧
    (HeuristicParser.extractComponents text).Nodup := by
  unfold HeuristicParser.extractComponents
  constructor
  · exact List.length_take_le _ _
  · exact (List.take_sublist _ _).nodup
      (foldl_setAdd_nodup _ [] List.nodup_nil)

/-- C10: for every input accepted by HeuristicParser.parse, the
extracted components list contains at most 10 entries and no
duplicates. -/
theorem parse_components_bounded_nodup (input : String)
    (h : 20 ≤ (jsTrim input).length) :
    ∃ out, HeuristicParser.parse input = Except.ok out ∧
      out.components.length ≤ 10 ∧ out.components.Nodup := by
  have hlt : ¬ ((jsTrim input).length < 20) := by omega
  have hp : HeuristicParser.parse input = Except.ok
      { title := HeuristicParser.extractTitle
          (HeuristicParser.splitIntoSentences (jsTrim input))
        domain := HeuristicParser.detectDomain (jsTrim input)
        description := HeuristicParser.generateDescription
          (HeuristicParser.splitIntoSentences (jsTrim input))
        requirements := HeuristicParser.extractRequirements
          (HeuristicParser.splitIntoSentences (jsTrim input))
        components := HeuristicParser.extractComponents (jsTrim input)
        tech_stack := HeuristicParser.detectTechStack
          ((splitRuns isJsWS (jsToLower (jsTrim input)).data).map String.mk)
        acceptance_criteria := HeuristicParser.extractAcceptanceCriteria
          (HeuristicParser.splitIntoSentences (jsTrim input))
        confidence := HeuristicParser.calculateConfidence (jsTrim input) } := by
    simp only [HeuristicParser.parse]
    rw [if_neg hlt]
  exact ⟨_, hp, (extractComponents_bounded_nodup (jsTrim input)).1,
    (extractComponents_bounded_nodup (jsTrim input)).2⟩

/-- Witness for C10 at a concrete accepted input. -/
theorem parse_components_bounded_nodup_witness :
    20 ≤ (jsTrim "Build a UserForm component for the dashboard").length ∧
    ∃ out, HeuristicParser.parse "Build a UserForm component for the dashboard" =
        Except.ok out ∧
      out.components.length ≤ 10 ∧ out.components.Nodup :=
  ⟨by decide,
   parse_components_bounded_nodup
     "Build a UserForm component for the dashboard" (by decide)⟩

/- ===================== Repair helper lemmas ======================== -/

theorem takeWhile_notQuote_contains (cl : List Char) :
    (cl.takeWhile OpenRouterAdapter.notQuote).contains '"' = false := by
  induction cl with
  | nil => rfl
  | cons c cs ih =>
      by_cases h : c = '"'
      · simp [List.takeWhile_cons, OpenRouterAdapter.notQuote, h]
      · have h2 : ('"' : Char) ∉ List.takeWhile OpenRouterAdapter.notQuote cs := by
          simpa using ih
        simp only [List.takeWhile_cons, OpenRouterAdapter.notQuote]
        simp only [show (c != '"') = true by simpa using h, if_true]
        simp [h2]
        exact fun hh => h hh.symm

theorem tryMatchKV_shape (l m k v r : List Char)
    (h : OpenRouterAdapter.tryMatchKV l = some (m, k, v, r)) :
    v.contains '"' = false ∧ m ++ r = l := by
  unfold OpenRouterAdapter.tryMatchKV at h
  split at h
  next rest1 =>
    by_cases hk : (rest1.takeWhile OpenRouterAdapter.notQuote).isEmpty
    · rw [if_pos hk] at h
      exact absurd h (by simp)
    · rw [if_neg hk] at h
      split at h
      next rest3 heq2 =>
        simp only [] at h
        split at h
        next rest5 heq4 =>
          split at h
          next rest7 heq6 =>
            simp only [Option.some.injEq, Prod.mk.injEq] at h
            obtain ⟨hm, hk2, hv, hr⟩ := h
            constructor
            · rw [← hv]
              exact takeWhile_notQuote_contains rest5
            · rw [← hm, ← hr]
              have e1 := List.takeWhile_append_dropWhile
                (p := OpenRouterAdapter.notQuote) (l := rest1)
              have e2 := List.takeWhile_append_dropWhile
                (p := isJsWS) (l := rest3)
              have e3 := List.takeWhile_append_dropWhile
                (p := OpenRouterAdapter.notQuote) (l := rest5)
              rw [heq2] at e1
              rw [heq4] at e2
              rw [heq6] at e3
              conv_rhs => rw [← e1]
              conv_rhs => rw [← e2]
              conv_rhs => rw [← e3]
              simp [List.append_assoc]
          next => exact absurd h (by simp)
        next => exact absurd h (by simp)
      next => exact absurd h (by simp)
  next => exact absurd h (by simp)

theorem fuqCallback_eq_matched (m k v : List Char)
    (hv : v.contains '"' = false) :
    OpenRouterAdapter.fuqCallback m k v = m := by
  unfold OpenRouterAdapter.fuqCallback
  rw [hv]
  simp

theorem fuqGo_id : ∀ (fuel : Nat) (l : List Char),
    OpenRouterAdapter.fuqGo fuel l = l := by
  intro fuel
  induction fuel with
  | zero => intro l; rfl
  | succ fuel ih =>
      intro l
      cases l with
      | nil => rfl
      | cons c cs =>
          show (match OpenRouterAdapter.tryMatchKV (c :: cs) with
                | some (matched, key, value, rest) =>
                    OpenRouterAdapter.fuqCallback matched key value ++
                      OpenRouterAdapter.fuqGo fuel rest
                | none => c :: OpenRouterAdapter.fuqGo fuel cs) = c :: cs
          cases htm : OpenRouterAdapter.tryMatchKV (c :: cs) with
          | none =>
              show c :: OpenRouterAdapter.fuqGo fuel cs = c :: cs
              rw [ih]
          | some quad =>
              obtain ⟨m, kk, v, r⟩ := quad
              obtain ⟨hv, hmr⟩ := tryMatchKV_shape _ _ _ _ _ htm
              show OpenRouterAdapter.fuqCallback m kk v ++
                  OpenRouterAdapter.fuqGo fuel r = c :: cs
              rw [fuqCallback_eq_matched m kk v hv, ih, hmr]

/-- The quote-escaping repair is extensionally the identity: the value
capture group matches [^"]*, so the escape condition can never fire. -/
theorem fixUnescapedQuotes_id (s : String) :
    OpenRouterAdapter.fixUnescapedQuotes s = s := by
  unfold OpenRouterAdapter.fixUnescapedQuotes
  rw [fuqGo_id]

/-- C5: evaluating the quote-escaping repair (strategy 3) at the
scenario-C payload — an embedded unescaped quote inside a description
string value — returns the payload unchanged: no quote is escaped, so
the payload does not become parseable.  (Follows from
fixUnescapedQuotes being the identity function.) -/
theorem fixUnescapedQuotes_scenarioC_unchanged :
    OpenRouterAdapter.fixUnescapedQuotes
        "\x7b\"description\": \"This is a \"quoted\" word\"\x7d" =
      "\x7b\"description\": \"This is a \"quoted\" word\"\x7d" :=
  fixUnescapedQuotes_id _

/-- C4 counterexample: on an input with surrounding whitespace, closure
repair trims first, so its output is shorter than the input and its
first character differs — the claim as stated over every input text is
false. -/
theorem repairIncompleteJson_counterexample :
    (OpenRouterAdapter.repairIncompleteJson " \x7b\x7d").length <
      (" \x7b\x7d" : String).length ∧
    (OpenRouterAdapter.repairIncompleteJson " \x7b\x7d").data.head? ≠
      (" \x7b\x7d" : String).data.head? := by
  constructor
  · decide
  · decide

/-- C4 (amended): closure repair first trims its input; applied to any
text without leading or trailing whitespace it never decreases the
length and never alters any character before the original end — it only
appends: at most one closing quote (exactly when the quote count is
odd), then exactly the number of closing brackets and then closing
braces needed to balance the counts. -/
theorem repairIncompleteJson_appends (s : String) (h : jsTrim s = s) :
    (OpenRouterAdapter.repairIncompleteJson s).data =
      s.data ++
      (if countChar '"' s.data % 2 ≠ 0 then ['"'] else []) ++
      List.replicate (countChar '[' s.data - countChar ']' s.data) ']' ++
      List.replicate (countChar '{' s.data - countChar '}' s.data) '}' ∧
    s.length ≤ (OpenRouterAdapter.repairIncompleteJson s).length ∧
    s.data <+: (OpenRouterAdapter.repairIncompleteJson s).data := by
  have hdata : (OpenRouterAdapter.repairIncompleteJson s).data =
      s.data ++
      (if countChar '"' s.data % 2 ≠ 0 then ['"'] else []) ++
      List.replicate (countChar '[' s.data - countChar ']' s.data) ']' ++
      List.replicate (countChar '{' s.data - countChar '}' s.data) '}' := by
    unfold OpenRouterAdapter.repairIncompleteJson
    rw [h]
    simp only []
    by_cases hq : countChar '"' s.data % 2 ≠ 0
    · rw [if_pos hq, if_pos hq]
      simp [String.data_append, String.append_assoc]
    · rw [if_neg hq, if_neg hq]
      simp [String.data_append]
  refine ⟨hdata, ?_, ?_⟩
  · show s.data.length ≤ (OpenRouterAdapter.repairIncompleteJson s).data.length
    rw [hdata]
    simp
  · rw [hdata]
    simp [List.append_assoc]

/-- Witness for the amended C4 at a concrete trimmed, truncated JSON
text: the repair appends one quote and one closing brace. -/
theorem repairIncompleteJson_appends_witness :
    jsTrim "\x7b\"title\": \"X" = "\x7b\"title\": \"X" ∧
    ("\x7b\"title\": \"X" : String).data <+:
      (OpenRouterAdapter.repairIncompleteJson "\x7b\"title\": \"X").data :=
  ⟨by decide,
   (repairIncompleteJson_appends "\x7b\"title\": \"X" (by decide)).2.2⟩

/- ===================== Trim idempotence ============================ -/

theorem dropWhile_head_false (p : Char → Bool) :
    ∀ (l : List Char) (c : Char) (cs : List Char),
    l.dropWhile p = c :: cs → p c = false := by
  intro l
  induction l with
  | nil => intro c cs h; simp [List.dropWhile] at h
  | cons a t ih =>
      intro c cs h
      by_cases hp : p a
      · rw [List.dropWhile_cons_of_pos hp] at h
        exact ih c cs h
      · rw [List.dropWhile_cons_of_neg hp] at h
        cases h
        simpa using hp

theorem dropWhile_no_op (p : Char → Bool) (l : List Char)
    (h : ∀ c cs, l = c :: cs → p c = false) : l.dropWhile p = l := by
  cases hl : l with
  | nil => rfl
  | cons c cs =>
      have := h c cs hl
      rw [List.dropWhile_cons_of_neg (by simp [this])]

theorem dropWhileSuffix (p : Char → Bool) (l : List Char) :
    l.dropWhile p <:+ l := by
  induction l with
  | nil => exact List.suffix_refl []
  | cons a t ih =>
      by_cases hp : p a
      · rw [List.dropWhile_cons_of_pos hp]
        exact ih.trans (List.suffix_cons a t)
      · rw [List.dropWhile_cons_of_neg hp]

theorem getLast?_of_suffix {l₁ l₂ : List Char} (h : l₁ <:+ l₂)
    (hne : l₁ ≠ []) : l₁.getLast? = l₂.getLast? := by
  obtain ⟨t, rfl⟩ := h
  cases hrev : l₁.reverse with
  | nil => exact absurd (by simpa using congrArg List.reverse hrev) hne
  | cons a as =>
      rw [← List.head?_reverse, ← List.head?_reverse, List.reverse_append,
        hrev]
      rfl

theorem trimRightL_getLast (l : List Char) :
    ∀ c, (trimRightL l).getLast? = some c → isJsWS c = false := by
  intro c h
  rw [trimRightL, List.getLast?_reverse] at h
  cases hd : l.reverse.dropWhile isJsWS with
  | nil => rw [hd] at h; cases h
  | cons a as =>
      rw [hd] at h
      have ha := dropWhile_head_false isJsWS l.reverse a as hd
      have hac : a = c := by simpa using h
      exact hac ▸ ha

theorem trimRightL_no_op (l : List Char)
    (h : ∀ c, l.getLast? = some c → isJsWS c = false) : trimRightL l = l := by
  rw [trimRightL]
  have : l.reverse.dropWhile isJsWS = l.reverse := by
    apply dropWhile_no_op
    intro c cs hrev
    apply h c
    rw [← List.head?_reverse, hrev]
    rfl
  rw [this, List.reverse_reverse]

theorem trimL_idem (l : List Char) : trimL (trimL l) = trimL l := by
  have h1 : ∀ c, (trimL l).getLast? = some c → isJsWS c = false := by
    intro c hc
    have hsuf : trimL l <:+ trimRightL l := dropWhileSuffix isJsWS _
    have hne : trimL l ≠ [] := by
      intro he
      rw [he] at hc
      cases hc
    rw [getLast?_of_suffix hsuf hne] at hc
    exact trimRightL_getLast l c hc
  have h2 : trimRightL (trimL l) = trimL l := trimRightL_no_op _ h1
  show (trimRightL (trimL l)).dropWhile isJsWS = trimL l
  rw [h2]
  apply dropWhile_no_op
  intro c cs hc
  exact dropWhile_head_false isJsWS (trimRightL l) c cs hc

theorem jsTrim_idem (s : String) : jsTrim (jsTrim s) = jsTrim s := by
  show String.mk (trimL (String.mk (trimL s.data)).data) =
    String.mk (trimL s.data)
  exact congrArg String.mk (trimL_idem s.data)

/- ===================== Processor lemmas ============================ -/

theorem parse_ok (t : String) (hlen : 20 ≤ (jsTrim t).length) :
    ∃ h, HeuristicParser.parse (jsTrim t) = Except.ok h := by
  have hcond : ¬ ((jsTrim (jsTrim t)).length < 20) := by
    rw [jsTrim_idem]
    omega
  have hp : HeuristicParser.parse (jsTrim t) = Except.ok
      { title := HeuristicParser.extractTitle
          (HeuristicParser.splitIntoSentences (jsTrim (jsTrim t)))
        domain := HeuristicParser.detectDomain (jsTrim (jsTrim t))
        description := HeuristicParser.generateDescription
          (HeuristicParser.splitIntoSentences (jsTrim (jsTrim t)))
        requirements := HeuristicParser.extractRequirements
          (HeuristicParser.splitIntoSentences (jsTrim (jsTrim t)))
        components := HeuristicParser.extractComponents (jsTrim (jsTrim t))
        tech_stack := HeuristicParser.detectTechStack
          ((splitRuns isJsWS (jsToLower (jsTrim (jsTrim t))).data).map
            String.mk)
        acceptance_criteria := HeuristicParser.extractAcceptanceCriteria
          (HeuristicParser.splitIntoSentences (jsTrim (jsTrim t)))
        confidence := HeuristicParser.calculateConfidence
          (jsTrim (jsTrim t)) } := by
    simp only [HeuristicParser.parse]
    rw [if_neg hcond]
  exact ⟨_, hp⟩

theorem process_miss_full (input : String) (env : ProcEnv)
    (cache : LRUCache) (h : HeuristicOutput)
    (hlen : 20 ≤ (jsTrim input).length)
    (hmiss : env.useCache = true →
      lookupEntry (generateKey (jsTrim input) env.provider env.model)
        cache.entries = none)
    (hp : HeuristicParser.parse (jsTrim input) = Except.ok h) :
    Processor.process input env cache = Except.ok
      ((Processor.refineStage (jsTrim input) h env).1,
        if env.useCache && (Processor.refineStage (jsTrim input) h env).2 then
          (if env.useCache then { cache with misses := cache.misses + 1 }
           else cache).set (jsTrim input) env.provider env.model
            (Processor.refineStage (jsTrim input) h env).1
        else
          (if env.useCache then { cache with misses := cache.misses + 1 }
           else cache)) := by
  unfold Processor.process
  rw [if_neg (by omega)]
  cases henv : env.useCache with
  | true =>
      have hm := hmiss henv
      have hget : cache.get (jsTrim input) env.provider env.model =
          (none, { cache with misses := cache.misses + 1 }) := by
        unfold LRUCache.get LRUCache.getK
        rw [hm]
      simp only [henv, if_true, hget, hp, Bool.true_and]
  | false =>
      simp only [henv, Bool.false_eq_true, if_false, hp, Bool.false_and]

theorem process_hit (input : String) (env : ProcEnv) (cache : LRUCache)
    (spec : VibeSpec)
    (hlen : 20 ≤ (jsTrim input).length)
    (huse : env.useCache = true)
    (hhit : lookupEntry (generateKey (jsTrim input) env.provider env.model)
      cache.entries = some spec) :
    Processor.process input env cache = Except.ok (spec,
      { cache with
        entries := cache.entries.filter
          (fun e => e.1 != generateKey (jsTrim input) env.provider env.model)
          ++ [(generateKey (jsTrim input) env.provider env.model, spec)]
        hits := cache.hits + 1 }) := by
  unfold Processor.process
  rw [if_neg (by omega)]
  have hget : cache.get (jsTrim input) env.provider env.model =
      (some spec,
        { cache with
          entries := cache.entries.filter
            (fun e => e.1 != generateKey (jsTrim input) env.provider env.model)
            ++ [(generateKey (jsTrim input) env.provider env.model, spec)]
          hits := cache.hits + 1 }) := by
    unfold LRUCache.get
    exact getK_hit cache _ spec hhit
  simp only [huse, if_true, hget]

theorem strNeEmpty_of_len {s : String} (h : 1 ≤ s.length) : s ≠ "" := by
  intro he
  rw [he] at h
  exact absurd h (by decide)

theorem jsOrStr_ne_empty (x d : String) (hd : d ≠ "") :
    jsOrStr x d ≠ "" := by
  unfold jsOrStr
  split
  · exact hd
  · assumption

theorem domainChoice_ne_empty :
    ∀ x ∈ domainsInOrder.map domainName, x ≠ "" := by decide

theorem fallbackStage_fields (normalized : String) (h : HeuristicOutput)
    (env : ProcEnv)
    (hwt : 5 ≤ env.answers.title.length)
    (hwdom : env.answers.domain ∈ domainsInOrder.map domainName)
    (hwde : 10 ≤ env.answers.description.length) :
    (Processor.refineStage.fallbackStage normalized h env).1.title ≠ "" ∧
    (Processor.refineStage.fallbackStage normalized h env).1.domain ≠ "" ∧
    (Processor.refineStage.fallbackStage normalized h env).1.description ≠ "" := by
  unfold Processor.refineStage.fallbackStage
  by_cases hw : (env.wizardAvailable && env.wizardAccepted) = true
  · rw [if_pos hw]
    refine ⟨?_, ?_, ?_⟩
    · show env.answers.title ≠ ""
      exact strNeEmpty_of_len (by omega)
    · show env.answers.domain ≠ ""
      exact domainChoice_ne_empty _ hwdom
    · show env.answers.description ≠ ""
      exact strNeEmpty_of_len (by omega)
  · rw [if_neg hw]
    refine ⟨?_, ?_, ?_⟩
    · exact jsOrStr_ne_empty _ _ (by decide)
    · show (match h.domain with
            | none => "fullstack"
            | some d => jsOrStr (domainName d) "fullstack") ≠ ""
      cases h.domain with
      | none => decide
      | some d => exact jsOrStr_ne_empty _ _ (by decide)
    · exact jsOrStr_ne_empty _ _ (by decide)

theorem refineStage_fields (normalized : String) (h : HeuristicOutput)
    (env : ProcEnv)
    (hwt : 5 ≤ env.answers.title.length)
    (hwdom : env.answers.domain ∈ domainsInOrder.map domainName)
    (hwde : 10 ≤ env.answers.description.length) :
    (Processor.refineStage normalized h env).1.title ≠ "" ∧
    (Processor.refineStage normalized h env).1.domain ≠ "" ∧
    (Processor.refineStage normalized h env).1.description ≠ "" := by
  unfold Processor.refineStage
  cases hai : env.aiRaw with
  | none =>
      simp only [hai]
      exact fallbackStage_fields normalized h env hwt hwdom hwde
  | some s =>
      simp only [hai]
      by_cases hv : validateFields s = true
      · rw [if_pos hv]
        simp only [validateFields, Bool.and_eq_true, bne_iff_ne, ne_eq] at hv
        exact ⟨hv.1.1, hv.1.2, hv.2⟩
      · rw [if_neg hv]
        exact fallbackStage_fields normalized h env hwt hwdom hwde

/-- C1 counterexample: the claim as stated is false — for the accepted
input of twenty periods, with refinement failing and the wizard
unavailable, the pipeline terminates with a spec whose requirements
list is empty (the input has no sentences, so the heuristic draft has
no requirements). -/
theorem process_requirements_empty_counterexample :
    20 ≤ (jsTrim "....................").length ∧
    (Processor.process "...................." demoEnvHeuristic
        (LRUCache.fresh 50)).toOption.map (fun p => p.1.requirements) =
      some [] := by
  constructor
  · decide
  · decide

/-- C1 (amended): for every input whose trimmed length is at least 20,
whenever the cache path does not hit, every combination of refinement
outcome (refinement succeeds; fails with the wizard available and
accepted; fails with the wizard declined; fails with the wizard
unavailable or disabled) makes Processor.process terminate successfully
with a StructuredSpec whose title, domain and description are present
and non-empty.  The requirements field is always present, but may be
the empty list.  The wizard hypotheses are the inquirer validators
(title at least 5 characters, description 10 to 500 characters, domain
chosen from the fixed list). -/
theorem process_total_core_fields
    (input : String) (env : ProcEnv) (cache : LRUCache)
    (hlen : 20 ≤ (jsTrim input).length)
    (hmiss : env.useCache = true →
      lookupEntry (generateKey (jsTrim input) env.provider env.model)
        cache.entries = none)
    (hwt : 5 ≤ env.answers.title.length)
    (hwdom : env.answers.domain ∈ domainsInOrder.map domainName)
    (hwde : 10 ≤ env.answers.description.length) :
    ∃ spec cache2,
      Processor.process input env cache = Except.ok (spec, cache2) ∧
      spec.title ≠ "" ∧ spec.domain ≠ "" ∧ spec.description ≠ "" := by
  obtain ⟨h, hp⟩ := parse_ok input hlen
  have heq := process_miss_full input env cache h hlen hmiss hp
  obtain ⟨f1, f2, f3⟩ := refineStage_fields (jsTrim input) h env hwt hwdom hwde
  exact ⟨_, _, heq, f1, f2, f3⟩

/-- Witness for the amended C1 on the wizard-accepted path at a
concrete input. -/
theorem process_total_core_fields_witness :
    ∃ spec cache2,
      Processor.process "Build me a small tool for notes" demoEnvWizard
        (LRUCache.fresh 50) = Except.ok (spec, cache2) ∧
      spec.title ≠ "" ∧ spec.domain ≠ "" ∧ spec.description ≠ "" :=
  process_total_core_fields "Build me a small tool for notes" demoEnvWizard
    (LRUCache.fresh 50) (by decide) (fun _ => rfl) (by decide) (by decide)
    (by decide)

/-- C2: evaluating Processor.process at a concrete run in which the
provider fails, the wizard is accepted, and caching is enabled: the
wizard-produced spec IS inserted into the result cache (the catch
block sets aiRefinementApplied to true on the wizard path, so the
cache-insertion guard passes), contradicting the claim and the
source's own comment that only successful AI refinements are cached. -/
theorem wizard_result_is_cached :
    (Processor.process "Build me a small tool for notes" demoEnvWizard
        (LRUCache.fresh 50)).toOption.map
      (fun p => (p.2.entries.length,
        p.1.metadata.map (fun (m : SpecMetadata) =>
          m.processing.refinement_method))) =
      some (1, some (some "wizard")) := by
  decide

/-- C3 counterexample: two identical calls with caching enabled and a
successful first refinement — the second call takes the cache-hit path
(hits increments) but the returned metadata still reports
cache_hit = false, because the stored spec is returned unchanged and
no call site ever passes cacheHit = true to createMetadata. -/
theorem second_call_cache_hit_flag_counterexample :
    (match Processor.process "Build me a small tool for notes" demoEnvAi
        (LRUCache.fresh 50) with
     | Except.ok (_, c1) =>
         (Processor.process "Build me a small tool for notes" demoEnvAi
           c1).toOption.map
           (fun p => (p.1.metadata.map (fun (m : SpecMetadata) =>
              m.processing.cache_hit), p.2.hits))
     | Except.error _ => none) = some (some false, 1) := by
  decide

/-- C3 (amended): when Processor.process is called twice with identical
input, provider and model, caching enabled, a positive cache capacity
and a successful first refinement, the second call takes the cache-hit
path (hits increments by one) and returns the first call's spec
unchanged — its metadata reports refinementMethod = ai and
cacheHit = false, the value recorded when the entry was stored. -/
theorem second_call_returns_cached_ai_spec
    (input : String) (env : ProcEnv) (cap : Nat) (v : VibeSpec)
    (hcap : 0 < cap) (hlen : 20 ≤ (jsTrim input).length)
    (huse : env.useCache = true) (hai : env.aiRaw = some v)
    (hval : validateFields v = true) :
    ∃ spec c1 c2,
      Processor.process input env (LRUCache.fresh cap) =
        Except.ok (spec, c1) ∧
      Processor.process input env c1 = Except.ok (spec, c2) ∧
      spec.metadata.map (fun (m : SpecMetadata) =>
        m.processing.refinement_method) = some (some "ai") ∧
      spec.metadata.map (fun (m : SpecMetadata) => m.processing.cache_hit) =
        some false ∧
      c2.hits = c1.hits + 1 := by
  obtain ⟨h, hp⟩ := parse_ok input hlen
  have hr : Processor.refineStage (jsTrim input) h env =
      (Processor.withMetadata v
        (Processor.createMetadata (jsTrim input) env.provider env.model
          h.confidence true false env.now) "ai", true) := by
    unfold Processor.refineStage
    rw [hai]
    show (if validateFields v = true then
        (Processor.withMetadata v
          (Processor.createMetadata (jsTrim input) env.provider env.model
            h.confidence true false env.now) "ai", true)
      else Processor.refineStage.fallbackStage (jsTrim input) h env) = _
    rw [if_pos hval]
  have heq1 := process_miss_full input env (LRUCache.fresh cap) h hlen
    (fun _ => rfl) hp
  rw [hr] at heq1
  simp only [huse, if_true, Bool.and_self] at heq1
  set specAI := Processor.withMetadata v
    (Processor.createMetadata (jsTrim input) env.provider env.model
      h.confidence true false env.now) "ai" with hspecAI
  set bumped : LRUCache :=
    { LRUCache.fresh cap with misses := (LRUCache.fresh cap).misses + 1 }
    with hbumped
  have hset : bumped.set (jsTrim input) env.provider env.model specAI =
      { bumped with
        entries := bumped.entries ++
          [(generateKey (jsTrim input) env.provider env.model, specAI)]
        sizeStat := bumped.entries.length + 1 } := by
    unfold LRUCache.set
    apply setK_fresh
    · intro e he
      rw [hbumped] at he
      cases he
    · rw [hbumped]
      show (0 : Nat) < cap
      omega
  have hbe : bumped.entries = [] := rfl
  have hc1entries : (bumped.set (jsTrim input) env.provider env.model
      specAI).entries =
      [(generateKey (jsTrim input) env.provider env.model, specAI)] := by
    rw [hset]
    show bumped.entries ++
      [(generateKey (jsTrim input) env.provider env.model, specAI)] = _
    rw [hbe]
    rfl
  have hhit2 : lookupEntry
      (generateKey (jsTrim input) env.provider env.model)
      (bumped.set (jsTrim input) env.provider env.model specAI).entries =
      some specAI := by
    rw [hc1entries]
    exact lookupEntry_cons_self _ _ _
  have heq2 := process_hit input env
    (bumped.set (jsTrim input) env.provider env.model specAI) specAI hlen
    huse hhit2
  refine ⟨specAI, _, _, heq1, heq2, ?_, ?_, ?_⟩
  · rfl
  · rfl
  · rfl

/-- Witness for the amended C3 at a concrete input and environment. -/
theorem second_call_returns_cached_ai_spec_witness :
    ∃ spec c1 c2,
      Processor.process "Build me a small tool for notes" demoEnvAi
        (LRUCache.fresh 50) = Except.ok (spec, c1) ∧
      Processor.process "Build me a small tool for notes" demoEnvAi c1 =
        Except.ok (spec, c2) ∧
      spec.metadata.map (fun (m : SpecMetadata) =>
        m.processing.refinement_method) = some (some "ai") ∧
      spec.metadata.map (fun (m : SpecMetadata) => m.processing.cache_hit) =
        some false ∧
      c2.hits = c1.hits + 1 :=
  second_call_returns_cached_ai_spec "Build me a small tool for notes"
    demoEnvAi 50 demoAiSpec (by decide) (by decide) rfl rfl (by decide)

/-- C9: LRUCache.clear() resets the hits, misses, and evictions
counters to zero in addition to removing all entries, so stats() called
immediately after clear() reports size = 0, hits = 0, misses = 0, and
evictions = 0 regardless of prior operations. -/
theorem clear_resets_stats_and_entries (c : LRUCache) :
    c.clear.getStats.size = 0 ∧ c.clear.getStats.hits = 0 ∧
    c.clear.getStats.misses = 0 ∧ c.clear.getStats.evictions = 0 ∧
    c.clear.entries = [] ∧ c.clear.size = 0 :=
  ⟨rfl, rfl, rfl, rfl, rfl, rfl⟩

end Vibespec
